import Mathlib

/-!
# randompass: password generation

A shallow embedding of `password/randompass.go`.

Conventions of the embedding.

* A Go `byte` is a natural number (its code); a `[]byte` is `Option (List Nat)`,
  where `none` is the nil slice.
* A Go `int` is an `Int`.  No arithmetic of the program overflows: `currentMissing`
  only moves towards zero and the shuffle indices lie below `Length`.
* A `map[string]bool` is `Option (List (String × Bool))`, `none` being the nil map.
  A `range` over a map visits its entries in an order Go leaves unspecified: the
  functions that range take the key order of each range as an argument, and the
  theorems quantify over every key order that is a permutation of the map's keys.
* `math/rand` is a stream `rnd : Nat → Nat` of raw values together with a cursor
  counting the values drawn so far; `rand.Intn n` reduces the raw value modulo `n`,
  so that every value of `[0, n)` can be returned and no other.
* A run either finishes, panics, or is cut off by the iteration bound of the model.
* A pointer receiver that may be nil is an `Option`; standard output is the list of
  lines handed to `fmt.Println`, each line the list of its bytes.
* `passwordvalidator.GetEntropy` belongs to an external library that computes with
  floating-point logarithms; it is an uninterpreted argument of `CreateRandomPassword`, and
  the `float64` it returns is kept as a rational number.  Nothing is proved that
  depends on the values it returns.
-/

namespace RandomPass

/-! ## Constants -/

def latinUpperTitle : String := "UpperLatin"
def latinLowerTitle : String := "LowerLatin"
def digitsTitle : String := "Digits"
def specialTitle : String := "Special"
def LatinLetterSliceSize : Int := 26
def DigitsSliceSize : Int := 10
def SpecialSetSliceSize : Int := 13

/-! ## Data model -/

/-- PasswordStruct: a generated password and its metadata. -/
structure PasswordStruct where
  PasswordItself : Option (List Nat)
  Length : Int
  currentMissing : Int
  UsedSymbolTypes : Option (List (String × Bool))
  EntropyOfPassword : Rat
  deriving DecidableEq

/-- SymbolType: a class of symbols usable in a password. -/
structure SymbolType where
  Title : String
  Collection : Option (List Nat)
  TypeSliceLength : Int
  deriving DecidableEq

/-- SymbolSet: the four built-in classes. -/
structure SymbolSet where
  UpperLatin : SymbolType
  LowerLatin : SymbolType
  Digits : SymbolType
  Special : SymbolType

/-- Outcome of a run of a function that may panic or loop. -/
inductive Outcome (α : Type) where
  | done (a : α)
  | panicked
  | outOfFuel
  deriving DecidableEq

/-! ## Go primitives -/

/-- The elements of a slice; the nil slice has none. -/
def sliceElems (s : Option (List Nat)) : List Nat :=
  match s with
  | none => []
  | some l => l

/-- Go `append(s, c)`: appending to the nil slice allocates. -/
def sliceAppend (s : Option (List Nat)) (c : Nat) : Option (List Nat) :=
  some (sliceElems s ++ [c])

/-- Go `s[i]`: `none` is the index-out-of-range panic. -/
def sliceIndex (s : Option (List Nat)) (i : Nat) : Option Nat :=
  (sliceElems s)[i]?

/-- The entries of a map; the nil map has none. -/
def mapEntries (m : Option (List (String × Bool))) : List (String × Bool) :=
  match m with
  | none => []
  | some es => es

/-- The keys of a map. -/
def mapKeys (m : Option (List (String × Bool))) : List String :=
  (mapEntries m).map Prod.fst

/-- Go `m[k]` on a `map[string]bool`: a missing key reads as `false`. -/
def mapIndex (m : Option (List (String × Bool))) (k : String) : Bool :=
  match (mapEntries m).find? (fun e => e.1 == k) with
  | some e => e.2
  | none => false

/-- The entries a `range` over the map yields when it visits the keys in `keyOrder`. -/
def mapRange (m : Option (List (String × Bool))) (keyOrder : List String) :
    List (String × Bool) :=
  keyOrder.map (fun k => (k, mapIndex m k))

/-- Go `rand.Intn n` on the raw value `raw`: panics (`none`) when `n ≤ 0`. -/
def Intn (raw : Nat) (n : Int) : Option Nat :=
  if n ≤ 0 then none else some (raw % n.toNat)

/-- The slice built from the nil slice by the loop `for i := lo; i <= hi; i++` whose body
appends `byte(i)`: the bytes `byte(lo), ..., byte(hi)`, or nil when the body never runs. -/
def byteLoop (lo hi : Char) : Option (List Nat) :=
  if hi.toNat < lo.toNat then none
  else some ((List.range (hi.toNat + 1 - lo.toNat)).map (fun d => (lo.toNat + d) % 256))

/-! ## Package state set up by `init` -/

def SymbolsToUse : SymbolSet where
  UpperLatin :=
    { Title := latinUpperTitle
      Collection := byteLoop 'A' 'Z'
      TypeSliceLength := LatinLetterSliceSize }
  LowerLatin :=
    { Title := latinLowerTitle
      Collection := byteLoop 'a' 'z'
      TypeSliceLength := LatinLetterSliceSize }
  Digits :=
    { Title := digitsTitle
      Collection := byteLoop '0' '9'
      TypeSliceLength := DigitsSliceSize }
  Special :=
    { Title := specialTitle
      Collection := some (['@', '#', '$', '%', '^', '&', '*', '(', ')', '_', '+', '!', '~'].map
        Char.toNat)
      TypeSliceLength := SpecialSetSliceSize }

/-- The zero value of `SymbolType`, which a map lookup returns for a missing key. -/
def zeroSymbolType : SymbolType :=
  { Title := "", Collection := none, TypeSliceLength := 0 }

/-- The map `KeyToCollectionMap`, as the list of its entries. -/
def KeyToCollectionEntries : List (String × SymbolType) :=
  [ (SymbolsToUse.UpperLatin.Title, SymbolsToUse.UpperLatin),
    (SymbolsToUse.LowerLatin.Title, SymbolsToUse.LowerLatin),
    (SymbolsToUse.Digits.Title, SymbolsToUse.Digits),
    (SymbolsToUse.Special.Title, SymbolsToUse.Special) ]

/-- Go `KeyToCollectionMap[k]`: a missing key reads as the zero `SymbolType`. -/
def KeyToCollectionMap (k : String) : SymbolType :=
  match KeyToCollectionEntries.find? (fun e => e.1 == k) with
  | some e => e.2
  | none => zeroSymbolType

/-! ## Operations -/

/-- The loop of `CheckIfAnyTypeSelected` over the entries still to visit: returns
`true` at the first selected entry, `false` when the range ends. -/
def firstSelected : List (String × Bool) → Bool
  | [] => false
  | (_, isSelected) :: rest => if isSelected then true else firstSelected rest

/-- CheckIfAnyTypeSelected: ranges over `UsedSymbolTypes` in the given key order and
returns `true` at the first selected entry. -/
def CheckIfAnyTypeSelected (ps : PasswordStruct) (keyOrder : List String) : Bool :=
  firstSelected (mapRange ps.UsedSymbolTypes keyOrder)

/-- RandomCharacter: `Collection[rand.Intn(TypeSliceLength)]`; `none` is a panic, of
`rand.Intn` or of the index expression. -/
def RandomCharacter (SymbolStruct : SymbolType) (raw : Nat) : Option Nat :=
  match Intn raw SymbolStruct.TypeSliceLength with
  | none => none
  | some i => sliceIndex SymbolStruct.Collection i

/-- One execution of the inner `for ... range Password.UsedSymbolTypes` of
`CreateUnShuffledPassword` over the entries still to visit.  The state is the password
and the number of random values drawn so far; `none` is a panic. -/
def fillPass (rnd : Nat → Nat) :
    List (String × Bool) → PasswordStruct × Nat → Option (PasswordStruct × Nat)
  | [], st => some st
  | (TypeName, isUsed) :: rest, (Password, drawn) =>
    if Password.currentMissing ≤ 0 then some (Password, drawn)
    else if isUsed then
      match RandomCharacter (KeyToCollectionMap TypeName) (rnd drawn) with
      | none => none
      | some Char =>
        fillPass rnd rest
          ({ Password with
              PasswordItself := sliceAppend Password.PasswordItself Char
              currentMissing := Password.currentMissing - 1 }, drawn + 1)
    else fillPass rnd rest (Password, drawn)

/-- CreateUnShuffledPassword: the outer loop runs while `currentMissing > 0`; its
`p`-th iteration ranges over the map in the key order `ord (ranged + p)`.  `fuel`
bounds the number of iterations of the outer loop. -/
def CreateUnShuffledPassword (rnd : Nat → Nat) (ord : Nat → List String) :
    Nat → Nat → PasswordStruct × Nat → Outcome (PasswordStruct × Nat)
  | fuel, ranged, (Password, drawn) =>
    if 0 < Password.currentMissing then
      match fuel with
      | 0 => Outcome.outOfFuel
      | fuel + 1 =>
        match fillPass rnd (mapRange Password.UsedSymbolTypes (ord ranged)) (Password, drawn) with
        | none => Outcome.panicked
        | some st => CreateUnShuffledPassword rnd ord fuel (ranged + 1) st
    else Outcome.done (Password, drawn)

/-- The swap closure handed to `rand.Shuffle`: exchanges `PasswordItself[i]` and
`PasswordItself[j]`; `none` is the index-out-of-range panic. -/
def swapBytes (s : Option (List Nat)) (i j : Nat) : Option (Option (List Nat)) :=
  match sliceIndex s i, sliceIndex s j with
  | some a, some b => some (some (((sliceElems s).set i b).set j a))
  | _, _ => none

/-- The loop of `rand.Shuffle`: `for i := n - 1; i > 0; i-- { j := Intn(i + 1); swap(i, j) }`,
entered with `i + 1 = k`. -/
def shuffleLoop (rnd : Nat → Nat) :
    Nat → Option (List Nat) × Nat → Option (Option (List Nat) × Nat)
  | 0, st => some st
  | 1, st => some st
  | i + 2, (s, drawn) =>
    match Intn (rnd drawn) ((i : Int) + 2) with
    | none => none
    | some j =>
      match swapBytes s (i + 1) j with
      | none => none
      | some s' => shuffleLoop rnd (i + 1) (s', drawn + 1)

/-- Go `rand.Shuffle(n, swap)`: panics when `n < 0`, otherwise runs Fisher-Yates from
index `n - 1` down to `1`. -/
def randShuffle (rnd : Nat → Nat) (n : Int) (st : Option (List Nat) × Nat) :
    Option (Option (List Nat) × Nat) :=
  if n < 0 then none else shuffleLoop rnd n.toNat st

/-- ShuffleThePassword: `rand.Shuffle(Password.Length, swap)` on `PasswordItself`. -/
def ShuffleThePassword (rnd : Nat → Nat) (st : PasswordStruct × Nat) :
    Option (PasswordStruct × Nat) :=
  match randShuffle rnd st.1.Length (st.1.PasswordItself, st.2) with
  | none => none
  | some (s, drawn) => some ({ st.1 with PasswordItself := s }, drawn)

/-- The zero value `PasswordStruct{}`. -/
def emptyPasswordStruct : PasswordStruct :=
  { PasswordItself := none
    Length := 0
    currentMissing := 0
    UsedSymbolTypes := none
    EntropyOfPassword := 0 }

/-- CreateRandomPassword.  `GetEntropy` is the entropy function of the external
library, `rnd` the random stream, `ord 0` the key order of the range inside
`CheckIfAnyTypeSelected` and `ord (p + 1)` that of the `p`-th pass of the fill loop. -/
def CreateRandomPassword (GetEntropy : List Nat → Rat) (rnd : Nat → Nat)
    (ord : Nat → List String) (fuel : Nat)
    (LatinUpperUse LatinLowerUse DigitsUse SpecialSetUse : Bool) (Length : Int) :
    Outcome PasswordStruct :=
  let ResultPassword : PasswordStruct :=
    { PasswordItself := some []
      Length := Length
      currentMissing := Length
      UsedSymbolTypes := some
        [ (latinUpperTitle, LatinUpperUse),
          (latinLowerTitle, LatinLowerUse),
          (digitsTitle, DigitsUse),
          (specialTitle, SpecialSetUse) ]
      EntropyOfPassword := 0 }
  if !CheckIfAnyTypeSelected ResultPassword (ord 0) then
    Outcome.done emptyPasswordStruct
  else
    match CreateUnShuffledPassword rnd ord fuel 1 (ResultPassword, 0) with
    | Outcome.panicked => Outcome.panicked
    | Outcome.outOfFuel => Outcome.outOfFuel
    | Outcome.done st =>
      match ShuffleThePassword rnd st with
      | none => Outcome.panicked
      | some (Password, _) =>
        Outcome.done
          { Password with EntropyOfPassword := GetEntropy (sliceElems Password.PasswordItself) }

/-- The text `DisplayPassword` prints for an empty password, as bytes. -/
def emptyMessage : List Nat :=
  "Password is empty".toList.map Char.toNat

/-- DisplayPassword on a receiver that may be the nil pointer (`none`).  The result is
the list of lines handed to `fmt.Println`, in order, and how the call ended.  The `if`
has no `return`, so the second `fmt.Println` is always reached; evaluating its argument
`Password.PasswordItself` on the nil receiver is the nil-dereference panic. -/
def DisplayPassword (Password : Option PasswordStruct) : List (List Nat) × Outcome Unit :=
  let isEmpty : Bool :=
    match Password with
    | none => true
    | some P => P.PasswordItself.isNone
  let printed : List (List Nat) := if isEmpty then [emptyMessage] else []
  match Password with
  | none => (printed, Outcome.panicked)
  | some P => (printed ++ [sliceElems P.PasswordItself], Outcome.done ())

/-! ## Notions used to state the properties -/

/-- The class invariant under which `RandomCharacter` cannot panic: the length field
is positive and does not exceed the number of bytes of the collection. -/
def SymbolType.InBounds (s : SymbolType) : Prop :=
  0 < s.TypeSliceLength ∧ s.TypeSliceLength ≤ ((sliceElems s.Collection).length : Int)

instance SymbolType.decidableInBounds (s : SymbolType) : Decidable s.InBounds :=
  inferInstanceAs (Decidable (_ ∧ _))

/-- The byte `c` is an element of the collection `KeyToCollectionMap` holds for `k`. -/
def inClass (c : Nat) (k : String) : Prop :=
  c ∈ sliceElems (KeyToCollectionMap k).Collection

instance decidableInClass (c : Nat) (k : String) : Decidable (inClass c k) :=
  inferInstanceAs (Decidable (c ∈ sliceElems (KeyToCollectionMap k).Collection))

/-- The keys of the selected entries of a range, in the order of the range. -/
def selectedKeys (es : List (String × Bool)) : List String :=
  (es.filter (fun e => e.2)).map Prod.fst

/-- The map `CreateRandomPassword` stores in `UsedSymbolTypes`. -/
def usedMap (LatinUpperUse LatinLowerUse DigitsUse SpecialSetUse : Bool) :
    Option (List (String × Bool)) :=
  some
    [ (latinUpperTitle, LatinUpperUse),
      (latinLowerTitle, LatinLowerUse),
      (digitsTitle, DigitsUse),
      (specialTitle, SpecialSetUse) ]

/-- Every range of the run visits each key of the map exactly once. -/
def RangesMap (m : Option (List (String × Bool))) (ord : Nat → List String) : Prop :=
  ∀ p, (ord p).Perm (mapKeys m)

/-- The union of the collections of the selected built-in classes, in the order
upper, lower, digits, special. -/
def selectedAlphabet (LatinUpperUse LatinLowerUse DigitsUse SpecialSetUse : Bool) : List Nat :=
  (if LatinUpperUse then sliceElems SymbolsToUse.UpperLatin.Collection else []) ++
  (if LatinLowerUse then sliceElems SymbolsToUse.LowerLatin.Collection else []) ++
  (if DigitsUse then sliceElems SymbolsToUse.Digits.Collection else []) ++
  (if SpecialSetUse then sliceElems SymbolsToUse.Special.Collection else [])

/-- The password `P` after the fill loop has appended the bytes `new`: an append
happens only for a non-empty `new`, and each appended byte lowers `currentMissing`. -/
def appendBytes (P : PasswordStruct) (new : List Nat) : PasswordStruct :=
  { P with
      PasswordItself :=
        if new = [] then P.PasswordItself else some (sliceElems P.PasswordItself ++ new)
      currentMissing := P.currentMissing - (new.length : Int) }

/-- The keys of the selected entries met by `passes` successive ranges over the map
`m`, the first of them in the key order `ord ranged`. -/
def schedule (m : Option (List (String × Bool))) (ord : Nat → List String) :
    Nat → Nat → List String
  | 0, _ => []
  | passes + 1, ranged =>
    selectedKeys (mapRange m (ord ranged)) ++ schedule m ord passes (ranged + 1)

/-- Every range of the run meets a selected entry, and every selected entry it meets
has a class in `KeyToCollectionMap` on which `RandomCharacter` cannot panic. -/
def Fillable (m : Option (List (String × Bool))) (ord : Nat → List String) : Prop :=
  ∀ p, selectedKeys (mapRange m (ord p)) ≠ []
    ∧ ∀ k ∈ selectedKeys (mapRange m (ord p)), (KeyToCollectionMap k).InBounds

/-- The value `ResultPassword` has in `CreateRandomPassword` before the check. -/
def startPassword (LatinUpperUse LatinLowerUse DigitsUse SpecialSetUse : Bool) (Length : Int) :
    PasswordStruct :=
  { PasswordItself := some []
    Length := Length
    currentMissing := Length
    UsedSymbolTypes := usedMap LatinUpperUse LatinLowerUse DigitsUse SpecialSetUse
    EntropyOfPassword := 0 }

/-- The number of selected classes. -/
def selectedCount (LatinUpperUse LatinLowerUse DigitsUse SpecialSetUse : Bool) : Nat :=
  [LatinUpperUse, LatinLowerUse, DigitsUse, SpecialSetUse].count true

/-- The titles that have an entry in `KeyToCollectionMap`. -/
def builtinTitles : List String :=
  KeyToCollectionEntries.map Prod.fst

/-- The number of bytes of `p` that belong to the collection of the class titled `t`. -/
def classCount (t : String) (p : List Nat) : Nat :=
  p.countP (fun c => decide (inClass c t))

/-! ## RandomCharacter -/

theorem Intn_lt (raw : Nat) (n : Int) (i : Nat) (h : Intn raw n = some i) :
    0 < n ∧ (i : Int) < n := by
  unfold Intn at h
  split at h
  · cases h
  · rename_i hn
    have hpos : 0 < n := by omega
    injection h with h
    subst h
    refine ⟨hpos, ?_⟩
    have h1 : raw % n.toNat < n.toNat := Nat.mod_lt _ (by omega)
    omega

theorem Intn_isSome (raw : Nat) (n : Int) (h : 0 < n) : Intn raw n = some (raw % n.toNat) := by
  unfold Intn
  rw [if_neg (by omega)]

theorem RandomCharacter_some_mem (s : SymbolType) (raw c : Nat)
    (h : RandomCharacter s raw = some c) : c ∈ sliceElems s.Collection := by
  unfold RandomCharacter at h
  split at h
  · cases h
  · unfold sliceIndex at h
    exact List.getElem?_mem h

theorem RandomCharacter_inBounds (s : SymbolType) (raw : Nat) (hs : s.InBounds) :
    ∃ c, RandomCharacter s raw = some c ∧ c ∈ sliceElems s.Collection := by
  obtain ⟨hpos, hle⟩ := hs
  have hidx : raw % s.TypeSliceLength.toNat < (sliceElems s.Collection).length := by
    have h1 : raw % s.TypeSliceLength.toNat < s.TypeSliceLength.toNat :=
      Nat.mod_lt _ (by omega)
    omega
  have hr : RandomCharacter s raw
      = some ((sliceElems s.Collection)[raw % s.TypeSliceLength.toNat]) := by
    unfold RandomCharacter
    rw [Intn_isSome raw _ hpos]
    simp only [sliceIndex]
    exact List.getElem?_eq_getElem hidx
  exact ⟨_, hr, RandomCharacter_some_mem s raw _ hr⟩

/-- C4: for a class whose collection is non-empty and whose length field equals the
size of the collection, `RandomCharacter` returns, whatever the random source
delivers, a byte of the collection. -/
theorem RandomCharacter_mem_collection (s : SymbolType) (raw : Nat)
    (hne : sliceElems s.Collection ≠ [])
    (hlen : s.TypeSliceLength = ((sliceElems s.Collection).length : Int)) :
    ∃ c, RandomCharacter s raw = some c ∧ c ∈ sliceElems s.Collection := by
  apply RandomCharacter_inBounds
  constructor
  · rw [hlen]
    have : 0 < (sliceElems s.Collection).length := List.length_pos.mpr hne
    omega
  · rw [hlen]

theorem RandomCharacter_mem_collection_witness :
    ∃ c, RandomCharacter SymbolsToUse.Digits 13 = some c
      ∧ c ∈ sliceElems SymbolsToUse.Digits.Collection :=
  RandomCharacter_mem_collection SymbolsToUse.Digits 13 (by decide) (by decide)

/-- C7, as stated, fails: a class with the non-empty collection `A` and the length
field `0` makes `rand.Intn` panic, and one with the length field `2` makes the index
expression panic. -/
theorem RandomCharacter_nonempty_panics :
    sliceElems (SymbolType.mk "" (some [65]) 0).Collection ≠ []
      ∧ RandomCharacter (SymbolType.mk "" (some [65]) 0) 0 = none
      ∧ sliceElems (SymbolType.mk "" (some [65]) 2).Collection ≠ []
      ∧ RandomCharacter (SymbolType.mk "" (some [65]) 2) 1 = none := by
  decide

/-- C7, amended: `RandomCharacter` returns a character for every value of the random
source exactly when the length field is positive and at most the size of the
collection. -/
theorem RandomCharacter_total_iff (s : SymbolType) :
    (∀ raw, ∃ c, RandomCharacter s raw = some c) ↔ s.InBounds := by
  constructor
  · intro h
    obtain ⟨c, hc⟩ := h (sliceElems s.Collection).length
    unfold RandomCharacter at hc
    split at hc
    · cases hc
    · rename_i i hi
      obtain ⟨hpos, -⟩ := Intn_lt _ _ _ hi
      refine ⟨hpos, ?_⟩
      by_contra hgt
      rw [Intn_isSome _ _ hpos] at hi
      injection hi with hi
      have hlt : (sliceElems s.Collection).length < s.TypeSliceLength.toNat := by omega
      rw [Nat.mod_eq_of_lt hlt] at hi
      subst hi
      unfold sliceIndex at hc
      have := List.getElem?_eq_none (l := sliceElems s.Collection)
        (n := (sliceElems s.Collection).length) (Nat.le_refl _)
      rw [this] at hc
      cases hc
  · intro hs raw
    obtain ⟨c, hc, -⟩ := RandomCharacter_inBounds s raw hs
    exact ⟨c, hc⟩

/-! ## The built-in alphabet -/

/-- C8, as stated, fails: the union of the four built-in collections does not have 85
distinct symbols, and the two Latin collections do not hold 62 letters. -/
theorem selectedAlphabet_all_not_85 :
    (selectedAlphabet true true true true).dedup.length ≠ 85
      ∧ (sliceElems SymbolsToUse.UpperLatin.Collection
          ++ sliceElems SymbolsToUse.LowerLatin.Collection).length ≠ 62 := by
  decide

/-- C8, amended: with all four classes selected the alphabet consists of exactly 75
distinct symbols: 52 Latin letters, 10 digits and 13 special symbols. -/
theorem selectedAlphabet_all_card :
    (selectedAlphabet true true true true).Nodup
      ∧ (selectedAlphabet true true true true).length = 75
      ∧ (sliceElems SymbolsToUse.UpperLatin.Collection
          ++ sliceElems SymbolsToUse.LowerLatin.Collection).length = 52
      ∧ (sliceElems SymbolsToUse.Digits.Collection).length = 10
      ∧ (sliceElems SymbolsToUse.Special.Collection).length = 13 := by
  decide

/-! ## Ranging over a map -/

theorem find?_key_of_nodup (es : List (String × Bool)) (hnd : (es.map Prod.fst).Nodup) :
    ∀ e ∈ es, es.find? (fun x => x.1 == e.1) = some e := by
  induction es with
  | nil => intro e he; cases he
  | cons a rest ih =>
    intro e he
    rw [List.map_cons, List.nodup_cons] at hnd
    rcases List.mem_cons.mp he with h | h
    · subst h
      simp
    · have hne : a.1 ≠ e.1 := by
        intro heq
        exact hnd.1 (heq ▸ List.mem_map_of_mem Prod.fst h)
      rw [List.find?_cons_of_neg _ (by simpa using hne)]
      exact ih hnd.2 e h

theorem mapRange_keys (m : Option (List (String × Bool))) (hnd : (mapKeys m).Nodup) :
    mapRange m (mapKeys m) = mapEntries m := by
  unfold mapRange mapKeys
  rw [List.map_map]
  conv => rhs; rw [← List.map_id (mapEntries m)]
  apply List.map_congr_left
  intro e he
  simp only [Function.comp, mapIndex, id]
  rw [find?_key_of_nodup (mapEntries m) hnd e he]

theorem mapRange_perm (m : Option (List (String × Bool))) (ks : List String)
    (hnd : (mapKeys m).Nodup) (h : ks.Perm (mapKeys m)) :
    (mapRange m ks).Perm (mapEntries m) := by
  rw [← mapRange_keys m hnd]
  exact h.map _

theorem selectedKeys_perm (es es' : List (String × Bool)) (h : es.Perm es') :
    (selectedKeys es).Perm (selectedKeys es') :=
  (h.filter _).map _

theorem firstSelected_iff (es : List (String × Bool)) :
    firstSelected es = true ↔ selectedKeys es ≠ [] := by
  induction es with
  | nil => simp [firstSelected, selectedKeys]
  | cons a rest ih =>
    obtain ⟨k, b⟩ := a
    cases b
    · simpa [firstSelected, selectedKeys] using ih
    · simp [firstSelected, selectedKeys]

theorem firstSelected_perm (es es' : List (String × Bool)) (h : es.Perm es') :
    firstSelected es = firstSelected es' := by
  have hp := selectedKeys_perm es es' h
  have h1 := firstSelected_iff es
  have h2 := firstSelected_iff es'
  have h3 : selectedKeys es ≠ [] ↔ selectedKeys es' ≠ [] := by
    constructor
    · intro hne heq
      rw [heq] at hp
      exact hne hp.eq_nil
    · intro hne heq
      rw [heq] at hp
      exact hne hp.symm.eq_nil
  cases hb : firstSelected es <;> cases hb' : firstSelected es' <;> simp_all

/-! ## The fill loop -/

theorem appendBytes_nil (P : PasswordStruct) : appendBytes P [] = P := by
  simp [appendBytes]

theorem sliceElems_appendBytes (P : PasswordStruct) (new : List Nat) :
    sliceElems (appendBytes P new).PasswordItself = sliceElems P.PasswordItself ++ new := by
  unfold appendBytes
  by_cases h : new = []
  · simp [h]
  · simp [h, sliceElems]

theorem appendBytes_appendBytes (P : PasswordStruct) (a b : List Nat) :
    appendBytes (appendBytes P a) b = appendBytes P (a ++ b) := by
  have h := sliceElems_appendBytes P a
  unfold appendBytes at h ⊢
  by_cases ha : a = [] <;> by_cases hb : b = []
  · simp [ha, hb]
  · simp [ha, hb]
  · simp [ha, hb]
  · simp only [ha, hb, if_false, List.append_eq_nil, and_self, List.length_append,
      Nat.cast_add, List.append_assoc, sliceElems]
    congr 1
    omega

theorem fillPass_spec (rnd : Nat → Nat) (es : List (String × Bool)) :
    ∀ (P : PasswordStruct) (drawn : Nat),
      (∀ k ∈ selectedKeys es, (KeyToCollectionMap k).InBounds) →
      ∃ new : List Nat,
        fillPass rnd es (P, drawn) = some (appendBytes P new, drawn + new.length)
          ∧ List.Forall₂ inClass new ((selectedKeys es).take P.currentMissing.toNat) := by
  induction es with
  | nil =>
    intro P drawn _
    exact ⟨[], by simp [fillPass, appendBytes_nil], by simp [selectedKeys]⟩
  | cons a rest ih =>
    intro P drawn hok
    obtain ⟨k, b⟩ := a
    by_cases hm : P.currentMissing ≤ 0
    · refine ⟨[], by simp [fillPass, hm, appendBytes_nil], ?_⟩
      have : P.currentMissing.toNat = 0 := by omega
      simp [this]
    · cases b
      · have hsel : selectedKeys ((k, false) :: rest) = selectedKeys rest := by
          simp [selectedKeys]
        rw [hsel] at hok ⊢
        obtain ⟨new, h1, h2⟩ := ih P drawn hok
        exact ⟨new, by simpa [fillPass, hm] using h1, h2⟩
      · have hsel : selectedKeys ((k, true) :: rest) = k :: selectedKeys rest := by
          simp [selectedKeys]
        rw [hsel] at hok ⊢
        obtain ⟨c, hc, hmem⟩ :=
          RandomCharacter_inBounds (KeyToCollectionMap k) (rnd drawn)
            (hok k (List.mem_cons_self _ _))
        obtain ⟨new, h1, h2⟩ :=
          ih { P with
                PasswordItself := sliceAppend P.PasswordItself c
                currentMissing := P.currentMissing - 1 } (drawn + 1)
            (fun k' hk' => hok k' (List.mem_cons_of_mem _ hk'))
        refine ⟨c :: new, ?_, ?_⟩
        · simp only [fillPass, hm, if_false, if_true, hc]
          rw [h1]
          have e : appendBytes { P with
                PasswordItself := sliceAppend P.PasswordItself c
                currentMissing := P.currentMissing - 1 } new = appendBytes P (c :: new) := by
            have := appendBytes_appendBytes P [c] new
            simpa [appendBytes, sliceAppend] using this
          rw [e]
          simp only [List.length_cons]
          congr 2
          omega
        · obtain ⟨n, hn⟩ : ∃ n, P.currentMissing.toNat = n + 1 :=
            ⟨P.currentMissing.toNat - 1, by omega⟩
          have hn' : (P.currentMissing - 1).toNat = n := by omega
          simp only [hn'] at h2
          rw [hn, List.take_succ_cons]
          exact List.Forall₂.cons hmem h2

theorem used_appendBytes (P : PasswordStruct) (new : List Nat) :
    (appendBytes P new).UsedSymbolTypes = P.UsedSymbolTypes := rfl

theorem missing_appendBytes (P : PasswordStruct) (new : List Nat) :
    (appendBytes P new).currentMissing = P.currentMissing - (new.length : Int) := rfl

theorem length_appendBytes (P : PasswordStruct) (new : List Nat) :
    (appendBytes P new).Length = P.Length := rfl

theorem schedule_length_ge (m : Option (List (String × Bool))) (ord : Nat → List String)
    (h : ∀ p, selectedKeys (mapRange m (ord p)) ≠ []) :
    ∀ passes ranged, passes ≤ (schedule m ord passes ranged).length := by
  intro passes
  induction passes with
  | zero => intro _; simp
  | succ n ih =>
    intro ranged
    have h1 := List.length_pos.mpr (h ranged)
    have h2 := ih (ranged + 1)
    simp only [schedule, List.length_append]
    omega

theorem CreateUnShuffledPassword_le_zero (rnd : Nat → Nat) (ord : Nat → List String)
    (fuel ranged : Nat) (P : PasswordStruct) (drawn : Nat) (h : P.currentMissing ≤ 0) :
    CreateUnShuffledPassword rnd ord fuel ranged (P, drawn) = Outcome.done (P, drawn) := by
  unfold CreateUnShuffledPassword
  rw [if_neg (by omega)]

theorem CreateUnShuffledPassword_spec (rnd : Nat → Nat) (ord : Nat → List String) :
    ∀ (fuel ranged : Nat) (P : PasswordStruct) (drawn : Nat),
      Fillable P.UsedSymbolTypes ord → P.currentMissing.toNat ≤ fuel →
      ∃ new : List Nat,
        CreateUnShuffledPassword rnd ord fuel ranged (P, drawn)
            = Outcome.done (appendBytes P new, drawn + new.length)
          ∧ List.Forall₂ inClass new
              ((schedule P.UsedSymbolTypes ord fuel ranged).take P.currentMissing.toNat) := by
  intro fuel
  induction fuel with
  | zero =>
    intro ranged P drawn _ hfuel
    have hm : P.currentMissing ≤ 0 := by omega
    refine ⟨[], ?_, ?_⟩
    · rw [CreateUnShuffledPassword_le_zero rnd ord 0 ranged P drawn hm, appendBytes_nil]
      rfl
    · simp [schedule]
  | succ fuel ih =>
    intro ranged P drawn hfill hfuel
    by_cases hm : P.currentMissing ≤ 0
    · refine ⟨[], ?_, ?_⟩
      · rw [CreateUnShuffledPassword_le_zero rnd ord _ ranged P drawn hm, appendBytes_nil]
        rfl
      · have : P.currentMissing.toNat = 0 := by omega
        simp [this]
    · obtain ⟨hne, hok⟩ := hfill ranged
      obtain ⟨new1, h1, hall1⟩ :=
        fillPass_spec rnd (mapRange P.UsedSymbolTypes (ord ranged)) P drawn hok
      have hlen1 := hall1.length_eq
      rw [List.length_take] at hlen1
      have hpos := List.length_pos.mpr hne
      have hfuel' : (appendBytes P new1).currentMissing.toNat ≤ fuel := by
        rw [missing_appendBytes]
        omega
      obtain ⟨new2, h2, hall2⟩ :=
        ih (ranged + 1) (appendBytes P new1) (drawn + new1.length) hfill hfuel'
      refine ⟨new1 ++ new2, ?_, ?_⟩
      · unfold CreateUnShuffledPassword
        rw [if_pos (by omega)]
        simp only [h1]
        rw [h2, appendBytes_appendBytes, List.length_append, Nat.add_assoc]
      · simp only [schedule]
        rw [List.take_append_eq_append_take]
        apply List.rel_append hall1
        have e : (appendBytes P new1).currentMissing.toNat
            = P.currentMissing.toNat
              - (selectedKeys (mapRange P.UsedSymbolTypes (ord ranged))).length := by
          rw [missing_appendBytes]
          omega
        rw [used_appendBytes, e] at hall2
        exact hall2

/-! ## The shuffle -/

theorem swap_perm (l : List Nat) (i j a b : Nat) (hi : l[i]? = some a) (hj : l[j]? = some b) :
    ((l.set i b).set j a).Perm l := by
  obtain ⟨hil, hia⟩ := List.getElem?_eq_some.mp hi
  obtain ⟨hjl, hjb⟩ := List.getElem?_eq_some.mp hj
  have hjl' : j < (l.set i b).length := by simpa using hjl
  have hgj : (l.set i b)[j] = b := by
    rw [List.getElem_set]
    split
    · rfl
    · exact hjb
  rw [List.perm_iff_count]
  intro x
  rw [List.count_set _ _ _ _ hjl', List.count_set _ _ _ _ hil, hgj, hia]
  have hle : (if (a == x) = true then 1 else 0) ≤ l.count x := by
    split
    · rename_i hax
      have hax' : a = x := by simpa using hax
      subst hax'
      exact List.count_pos_iff.mpr (List.getElem?_mem hi)
    · omega
  omega

theorem swapBytes_spec (s : Option (List Nat)) (i j : Nat) (s' : Option (List Nat))
    (h : swapBytes s i j = some s') :
    (sliceElems s').Perm (sliceElems s) ∧ s'.isSome = true := by
  unfold swapBytes at h
  split at h
  · rename_i a b ha hb
    injection h with h
    subst h
    exact ⟨swap_perm _ _ _ _ _ ha hb, rfl⟩
  · cases h

theorem swapBytes_total (s : Option (List Nat)) (i j : Nat)
    (hi : i < (sliceElems s).length) (hj : j < (sliceElems s).length) :
    ∃ s', swapBytes s i j = some s' := by
  unfold swapBytes sliceIndex
  rw [List.getElem?_eq_getElem hi, List.getElem?_eq_getElem hj]
  exact ⟨_, rfl⟩

theorem shuffleLoop_perm (rnd : Nat → Nat) :
    ∀ (k : Nat) (s : Option (List Nat)) (drawn : Nat) (s' : Option (List Nat)) (d' : Nat),
      shuffleLoop rnd k (s, drawn) = some (s', d') →
      (sliceElems s').Perm (sliceElems s) ∧ (s.isSome = true → s'.isSome = true) := by
  intro k
  induction k using Nat.strong_induction_on with
  | _ k ih =>
    intro s drawn s' d' h
    match k, ih with
    | 0, _ =>
      simp only [shuffleLoop, Option.some.injEq, Prod.mk.injEq] at h
      obtain ⟨rfl, -⟩ := h
      exact ⟨List.Perm.refl _, id⟩
    | 1, _ =>
      simp only [shuffleLoop, Option.some.injEq, Prod.mk.injEq] at h
      obtain ⟨rfl, -⟩ := h
      exact ⟨List.Perm.refl _, id⟩
    | i + 2, ih =>
      simp only [shuffleLoop] at h
      split at h
      · cases h
      · rename_i j _
        split at h
        · cases h
        · rename_i s1 hs1
          obtain ⟨hp1, hsome1⟩ := swapBytes_spec _ _ _ _ hs1
          obtain ⟨hp2, hsome2⟩ := ih (i + 1) (by omega) s1 (drawn + 1) s' d' h
          exact ⟨hp2.trans hp1, fun _ => hsome2 hsome1⟩

theorem shuffleLoop_total (rnd : Nat → Nat) :
    ∀ (k : Nat) (s : Option (List Nat)) (drawn : Nat),
      k ≤ (sliceElems s).length →
      ∃ s', shuffleLoop rnd k (s, drawn) = some (s', drawn + (k - 1)) := by
  intro k
  induction k using Nat.strong_induction_on with
  | _ k ih =>
    intro s drawn hk
    match k, ih with
    | 0, _ => exact ⟨s, rfl⟩
    | 1, _ => exact ⟨s, rfl⟩
    | i + 2, ih =>
      have hpos : (0 : Int) < (i : Int) + 2 := by omega
      have hj : rnd drawn % ((i : Int) + 2).toNat < (sliceElems s).length := by
        have : rnd drawn % ((i : Int) + 2).toNat < ((i : Int) + 2).toNat :=
          Nat.mod_lt _ (by omega)
        omega
      obtain ⟨s1, hs1⟩ := swapBytes_total s (i + 1) _ (by omega) hj
      have hlen : (sliceElems s1).length = (sliceElems s).length :=
        (swapBytes_spec _ _ _ _ hs1).1.length_eq
      obtain ⟨s2, hs2⟩ := ih (i + 1) (by omega) s1 (drawn + 1) (by omega)
      refine ⟨s2, ?_⟩
      simp only [shuffleLoop, Intn_isSome _ _ hpos, hs1, hs2]
      congr 2
      omega

theorem ShuffleThePassword_spec (rnd : Nat → Nat) (P P' : PasswordStruct) (drawn d' : Nat)
    (h : ShuffleThePassword rnd (P, drawn) = some (P', d')) :
    ∃ s', P' = { P with PasswordItself := s' }
      ∧ (sliceElems s').Perm (sliceElems P.PasswordItself)
      ∧ (P.PasswordItself.isSome = true → s'.isSome = true) := by
  unfold ShuffleThePassword randShuffle at h
  split at h
  · cases h
  · rename_i s d hs
    simp only [Option.some.injEq, Prod.mk.injEq] at h
    obtain ⟨rfl, -⟩ := h
    split at hs
    · cases hs
    · exact ⟨s, rfl, shuffleLoop_perm rnd _ _ _ _ _ hs⟩

theorem ShuffleThePassword_total (rnd : Nat → Nat) (P : PasswordStruct) (drawn : Nat)
    (h0 : 0 ≤ P.Length) (hlen : P.Length ≤ ((sliceElems P.PasswordItself).length : Int)) :
    ∃ P' d', ShuffleThePassword rnd (P, drawn) = some (P', d') := by
  obtain ⟨s', hs'⟩ := shuffleLoop_total rnd P.Length.toNat P.PasswordItself drawn (by omega)
  refine ⟨{ P with PasswordItself := s' }, drawn + (P.Length.toNat - 1), ?_⟩
  unfold ShuffleThePassword randShuffle
  simp only [if_neg (show ¬ P.Length < 0 by omega), hs']

/-- C5: whenever `ShuffleThePassword` runs to its end, the bytes of `PasswordItself`
afterwards are a permutation of the bytes before (same multiset, same number); and it
does run to its end whenever `0 ≤ Length ≤ len(PasswordItself)`. -/
theorem ShuffleThePassword_perm (rnd : Nat → Nat) (Password : PasswordStruct) (drawn : Nat) :
    (∀ P' d', ShuffleThePassword rnd (Password, drawn) = some (P', d') →
        (sliceElems P'.PasswordItself).Perm (sliceElems Password.PasswordItself)
          ∧ (sliceElems P'.PasswordItself).length = (sliceElems Password.PasswordItself).length)
      ∧ (0 ≤ Password.Length →
          Password.Length ≤ ((sliceElems Password.PasswordItself).length : Int) →
          ∃ P' d', ShuffleThePassword rnd (Password, drawn) = some (P', d')) := by
  constructor
  · intro P' d' h
    obtain ⟨s', rfl, hp, -⟩ := ShuffleThePassword_spec rnd _ _ _ _ h
    exact ⟨hp, hp.length_eq⟩
  · exact ShuffleThePassword_total rnd Password drawn

theorem ShuffleThePassword_perm_witness :
    ∃ P' d',
      ShuffleThePassword (fun _ => 0) (PasswordStruct.mk (some [65, 97, 48]) 3 0 none 0, 0)
          = some (P', d')
        ∧ (sliceElems P'.PasswordItself).Perm [65, 97, 48] := by
  have h := ShuffleThePassword_perm (fun _ => 0) (PasswordStruct.mk (some [65, 97, 48]) 3 0 none 0) 0
  obtain ⟨P', d', e⟩ := h.2 (by decide) (by decide)
  exact ⟨P', d', e, (h.1 P' d' e).1⟩

/-! ## The map built by `CreateRandomPassword` -/

theorem mapKeys_usedMap (u l d s : Bool) :
    mapKeys (usedMap u l d s) = [latinUpperTitle, latinLowerTitle, digitsTitle, specialTitle] :=
  rfl

theorem mapKeys_usedMap_nodup (u l d s : Bool) : (mapKeys (usedMap u l d s)).Nodup := by
  rw [mapKeys_usedMap]
  decide

theorem KeyToCollectionMap_titles :
    KeyToCollectionMap latinUpperTitle = SymbolsToUse.UpperLatin
      ∧ KeyToCollectionMap latinLowerTitle = SymbolsToUse.LowerLatin
      ∧ KeyToCollectionMap digitsTitle = SymbolsToUse.Digits
      ∧ KeyToCollectionMap specialTitle = SymbolsToUse.Special := by
  decide

theorem builtin_inBounds :
    SymbolsToUse.UpperLatin.InBounds ∧ SymbolsToUse.LowerLatin.InBounds
      ∧ SymbolsToUse.Digits.InBounds ∧ SymbolsToUse.Special.InBounds := by
  decide

theorem selectedKeys_usedMap_cases (u l d s : Bool) (k : String)
    (hk : k ∈ selectedKeys (mapEntries (usedMap u l d s))) :
    (u = true ∧ k = latinUpperTitle) ∨ (l = true ∧ k = latinLowerTitle)
      ∨ (d = true ∧ k = digitsTitle) ∨ (s = true ∧ k = specialTitle) := by
  simp only [selectedKeys, usedMap, mapEntries, List.mem_map, List.mem_filter, List.mem_cons,
    List.mem_singleton, List.not_mem_nil, or_false] at hk
  obtain ⟨e, ⟨he, hb⟩, rfl⟩ := hk
  rcases he with rfl | rfl | rfl | rfl
  · exact Or.inl ⟨hb, rfl⟩
  · exact Or.inr (Or.inl ⟨hb, rfl⟩)
  · exact Or.inr (Or.inr (Or.inl ⟨hb, rfl⟩))
  · exact Or.inr (Or.inr (Or.inr ⟨hb, rfl⟩))

theorem selectedKeys_usedMap_ne_nil (u l d s : Bool) (hsel : (u || l || d || s) = true) :
    selectedKeys (mapEntries (usedMap u l d s)) ≠ [] := by
  cases u <;> cases l <;> cases d <;> cases s <;>
    first
      | exact absurd hsel (by decide)
      | decide

theorem selectedKeys_range_perm (u l d s : Bool) (ord : Nat → List String)
    (hord : RangesMap (usedMap u l d s) ord) (p : Nat) :
    (selectedKeys (mapRange (usedMap u l d s) (ord p))).Perm
      (selectedKeys (mapEntries (usedMap u l d s))) :=
  selectedKeys_perm _ _ (mapRange_perm _ _ (mapKeys_usedMap_nodup u l d s) (hord p))

theorem Fillable_usedMap (u l d s : Bool) (ord : Nat → List String)
    (hsel : (u || l || d || s) = true) (hord : RangesMap (usedMap u l d s) ord) :
    Fillable (usedMap u l d s) ord := by
  intro p
  have hp := selectedKeys_range_perm u l d s ord hord p
  constructor
  · intro heq
    rw [heq] at hp
    exact selectedKeys_usedMap_ne_nil u l d s hsel hp.symm.eq_nil
  · intro k hk
    obtain ⟨h1, h2, h3, h4⟩ := KeyToCollectionMap_titles
    obtain ⟨b1, b2, b3, b4⟩ := builtin_inBounds
    rcases selectedKeys_usedMap_cases u l d s k (hp.subset hk) with
      ⟨-, rfl⟩ | ⟨-, rfl⟩ | ⟨-, rfl⟩ | ⟨-, rfl⟩
    · rw [h1]; exact b1
    · rw [h2]; exact b2
    · rw [h3]; exact b3
    · rw [h4]; exact b4

theorem CheckIfAnyTypeSelected_usedMap (u l d s : Bool) (P : PasswordStruct)
    (hP : P.UsedSymbolTypes = usedMap u l d s) (ks : List String)
    (hks : ks.Perm (mapKeys (usedMap u l d s))) :
    CheckIfAnyTypeSelected P ks = (u || l || d || s) := by
  unfold CheckIfAnyTypeSelected
  rw [hP, firstSelected_perm _ _ (mapRange_perm _ _ (mapKeys_usedMap_nodup u l d s) hks)]
  cases u <;> cases l <;> cases d <;> cases s <;> rfl

/-! ## CreateRandomPassword -/

theorem CreateRandomPassword_eq (G : List Nat → Rat) (rnd : Nat → Nat) (ord : Nat → List String)
    (fuel : Nat) (u l d s : Bool) (Length : Int) :
    CreateRandomPassword G rnd ord fuel u l d s Length =
      if !CheckIfAnyTypeSelected (startPassword u l d s Length) (ord 0) then
        Outcome.done emptyPasswordStruct
      else
        match CreateUnShuffledPassword rnd ord fuel 1 (startPassword u l d s Length, 0) with
        | Outcome.panicked => Outcome.panicked
        | Outcome.outOfFuel => Outcome.outOfFuel
        | Outcome.done st =>
          match ShuffleThePassword rnd st with
          | none => Outcome.panicked
          | some (Password, _) =>
            Outcome.done
              { Password with
                  EntropyOfPassword := G (sliceElems Password.PasswordItself) } := rfl

theorem appendBytes_startPassword (u l d s : Bool) (Length : Int) (new : List Nat)
    (hlen : (new.length : Int) = Length) :
    appendBytes (startPassword u l d s Length) new
      = { PasswordItself := some new
          Length := Length
          currentMissing := 0
          UsedSymbolTypes := usedMap u l d s
          EntropyOfPassword := 0 } := by
  unfold appendBytes startPassword
  by_cases h : new = []
  · subst h
    simp only [List.length_nil, Nat.cast_zero] at hlen
    simp [← hlen]
  · simp [h, sliceElems, hlen]

theorem fill_startPassword (rnd : Nat → Nat) (ord : Nat → List String) (fuel : Nat)
    (u l d s : Bool) (Length : Int)
    (hsel : (u || l || d || s) = true) (h0 : 0 ≤ Length)
    (hord : RangesMap (usedMap u l d s) ord) (hfuel : Length.toNat ≤ fuel) :
    ∃ new : List Nat,
      CreateUnShuffledPassword rnd ord fuel 1 (startPassword u l d s Length, 0)
          = Outcome.done
              ({ PasswordItself := some new
                 Length := Length
                 currentMissing := 0
                 UsedSymbolTypes := usedMap u l d s
                 EntropyOfPassword := 0 }, new.length)
        ∧ (new.length : Int) = Length
        ∧ List.Forall₂ inClass new
            ((schedule (usedMap u l d s) ord fuel 1).take Length.toNat) := by
  have hfill := Fillable_usedMap u l d s ord hsel hord
  obtain ⟨new, hrun, hall⟩ :=
    CreateUnShuffledPassword_spec rnd ord fuel 1 (startPassword u l d s Length) 0 hfill hfuel
  have hsched := schedule_length_ge (usedMap u l d s) ord (fun p => (hfill p).1) fuel 1
  have hlen := hall.length_eq
  rw [List.length_take] at hlen
  have hlen' : (new.length : Int) = Length := by
    have e1 : (startPassword u l d s Length).currentMissing = Length := rfl
    have e2 : (startPassword u l d s Length).UsedSymbolTypes = usedMap u l d s := rfl
    rw [e1, e2] at hlen
    omega
  refine ⟨new, ?_, hlen', hall⟩
  rw [hrun, appendBytes_startPassword u l d s Length new hlen', Nat.zero_add]

theorem CreateRandomPassword_spec (G : List Nat → Rat) (rnd : Nat → Nat)
    (ord : Nat → List String) (fuel : Nat) (u l d s : Bool) (Length : Int)
    (hsel : (u || l || d || s) = true) (h0 : 0 ≤ Length)
    (hord : RangesMap (usedMap u l d s) ord) (hfuel : Length.toNat ≤ fuel) :
    ∃ new shuffled : List Nat,
      CreateRandomPassword G rnd ord fuel u l d s Length
          = Outcome.done
              { PasswordItself := some shuffled
                Length := Length
                currentMissing := 0
                UsedSymbolTypes := usedMap u l d s
                EntropyOfPassword := G shuffled }
        ∧ shuffled.Perm new
        ∧ (new.length : Int) = Length
        ∧ List.Forall₂ inClass new
            ((schedule (usedMap u l d s) ord fuel 1).take Length.toNat) := by
  obtain ⟨new, hrun, hlen, hall⟩ := fill_startPassword rnd ord fuel u l d s Length hsel h0 hord hfuel
  obtain ⟨P', d', hP'⟩ := ShuffleThePassword_total rnd
    { PasswordItself := some new
      Length := Length
      currentMissing := 0
      UsedSymbolTypes := usedMap u l d s
      EntropyOfPassword := 0 } new.length h0 (by simp [sliceElems, hlen])
  obtain ⟨s', rfl, hperm, hsome⟩ := ShuffleThePassword_spec rnd _ _ _ _ hP'
  obtain ⟨shuffled, rfl⟩ := Option.isSome_iff_exists.mp (hsome rfl)
  refine ⟨new, shuffled, ?_, hperm, hlen, hall⟩
  rw [CreateRandomPassword_eq,
    CheckIfAnyTypeSelected_usedMap u l d s _ rfl (ord 0) (hord 0), hsel]
  simp only [Bool.not_true, Bool.false_eq_true, if_false, hrun, hP']
  rfl

theorem forall₂_mem_left {R : Nat → String → Prop} {l₁ : List Nat} {l₂ : List String}
    (h : List.Forall₂ R l₁ l₂) : ∀ c ∈ l₁, ∃ k ∈ l₂, R c k := by
  induction h with
  | nil => intro c hc; cases hc
  | cons hab _ ih =>
    intro c hc
    rcases List.mem_cons.mp hc with rfl | hc
    · exact ⟨_, List.mem_cons_self _ _, hab⟩
    · obtain ⟨k, hk, hr⟩ := ih c hc
      exact ⟨k, List.mem_cons_of_mem _ hk, hr⟩

theorem mem_schedule (m : Option (List (String × Bool))) (ord : Nat → List String) (k : String) :
    ∀ passes ranged, k ∈ schedule m ord passes ranged →
      ∃ p, k ∈ selectedKeys (mapRange m (ord p)) := by
  intro passes
  induction passes with
  | zero => intro _ h; cases h
  | succ n ih =>
    intro ranged h
    simp only [schedule, List.mem_append] at h
    rcases h with h | h
    · exact ⟨ranged, h⟩
    · exact ih (ranged + 1) h

theorem mapIndex_all_false (k : String) : mapIndex (usedMap false false false false) k = false := by
  unfold mapIndex
  split
  · rename_i e he
    have hmem := List.mem_of_find?_eq_some he
    simp only [usedMap, mapEntries, List.mem_cons, List.mem_singleton, List.not_mem_nil,
      or_false] at hmem
    rcases hmem with rfl | rfl | rfl | rfl <;> rfl
  · rfl

theorem firstSelected_all_false (ks : List String) :
    firstSelected (mapRange (usedMap false false false false) ks) = false := by
  induction ks with
  | nil => rfl
  | cons k rest ih =>
    simp only [mapRange, List.map_cons, firstSelected, mapIndex_all_false] at ih ⊢
    simpa using ih

/-- C1: with at least one flag true and `Length ≥ 0`, whatever the random source
delivers and in whatever order the map is ranged over, `CreateRandomPassword` returns
a password whose `PasswordItself` has exactly `Length` bytes (`Length` iterations of
the outer fill loop always suffice). -/
theorem CreateRandomPassword_length (G : List Nat → Rat) (rnd : Nat → Nat)
    (ord : Nat → List String) (fuel : Nat) (u l d s : Bool) (Length : Int)
    (hsel : (u || l || d || s) = true) (h0 : 0 ≤ Length)
    (hord : RangesMap (usedMap u l d s) ord) (hfuel : Length.toNat ≤ fuel) :
    ∃ P, CreateRandomPassword G rnd ord fuel u l d s Length = Outcome.done P
      ∧ ((sliceElems P.PasswordItself).length : Int) = Length := by
  obtain ⟨new, shuffled, hrun, hperm, hlen, -⟩ :=
    CreateRandomPassword_spec G rnd ord fuel u l d s Length hsel h0 hord hfuel
  refine ⟨_, hrun, ?_⟩
  simp only [sliceElems]
  rw [hperm.length_eq, hlen]

theorem CreateRandomPassword_length_witness :
    ∃ P, CreateRandomPassword (fun _ => 0) (fun i => 7 * i + 3)
          (fun _ => [latinUpperTitle, latinLowerTitle, digitsTitle, specialTitle]) 12
          true true true true 12 = Outcome.done P
      ∧ ((sliceElems P.PasswordItself).length : Int) = 12 :=
  CreateRandomPassword_length (fun _ => 0) (fun i => 7 * i + 3)
    (fun _ => [latinUpperTitle, latinLowerTitle, digitsTitle, specialTitle]) 12
    true true true true 12 (by decide) (by decide) (fun _ => List.Perm.refl _) (by decide)

/-- C2: with all four flags false, `CreateRandomPassword` returns, for every requested
length and without ranging the fill loop or drawing a random value, the zero-value
`PasswordStruct`: nil `PasswordItself`, `Length` 0, nil `UsedSymbolTypes`, entropy 0. -/
theorem CreateRandomPassword_none_selected (G : List Nat → Rat) (rnd : Nat → Nat)
    (ord : Nat → List String) (fuel : Nat) (Length : Int) :
    CreateRandomPassword G rnd ord fuel false false false false Length
      = Outcome.done
          { PasswordItself := none
            Length := 0
            currentMissing := 0
            UsedSymbolTypes := none
            EntropyOfPassword := 0 } := by
  rw [CreateRandomPassword_eq]
  have h : CheckIfAnyTypeSelected (startPassword false false false false Length) (ord 0)
      = false := firstSelected_all_false (ord 0)
  rw [h]
  rfl

theorem CreateRandomPassword_spec_bytes (G : List Nat → Rat) (rnd : Nat → Nat)
    (ord : Nat → List String) (fuel : Nat) (u l d s : Bool) (Length : Int)
    (hsel : (u || l || d || s) = true) (h0 : 0 ≤ Length)
    (hord : RangesMap (usedMap u l d s) ord) (hfuel : Length.toNat ≤ fuel) :
    ∃ shuffled : List Nat,
      CreateRandomPassword G rnd ord fuel u l d s Length
          = Outcome.done
              { PasswordItself := some shuffled
                Length := Length
                currentMissing := 0
                UsedSymbolTypes := usedMap u l d s
                EntropyOfPassword := G shuffled }
        ∧ (shuffled.length : Int) = Length
        ∧ ∀ c ∈ shuffled,
            (u = true ∧ c ∈ sliceElems SymbolsToUse.UpperLatin.Collection)
              ∨ (l = true ∧ c ∈ sliceElems SymbolsToUse.LowerLatin.Collection)
              ∨ (d = true ∧ c ∈ sliceElems SymbolsToUse.Digits.Collection)
              ∨ (s = true ∧ c ∈ sliceElems SymbolsToUse.Special.Collection) := by
  obtain ⟨new, shuffled, hrun, hperm, hlen, hall⟩ :=
    CreateRandomPassword_spec G rnd ord fuel u l d s Length hsel h0 hord hfuel
  refine ⟨shuffled, hrun, by rw [hperm.length_eq, hlen], ?_⟩
  intro c hc
  obtain ⟨k, hk, hck⟩ := forall₂_mem_left hall c (hperm.subset hc)
  obtain ⟨p, hp⟩ := mem_schedule _ _ _ _ _ (List.mem_of_mem_take hk)
  obtain ⟨h1, h2, h3, h4⟩ := KeyToCollectionMap_titles
  unfold inClass at hck
  rcases selectedKeys_usedMap_cases u l d s k
      ((selectedKeys_range_perm u l d s ord hord p).subset hp) with
    ⟨hu, rfl⟩ | ⟨hl, rfl⟩ | ⟨hd, rfl⟩ | ⟨hs, rfl⟩
  · rw [h1] at hck; exact Or.inl ⟨hu, hck⟩
  · rw [h2] at hck; exact Or.inr (Or.inl ⟨hl, hck⟩)
  · rw [h3] at hck; exact Or.inr (Or.inr (Or.inl ⟨hd, hck⟩))
  · rw [h4] at hck; exact Or.inr (Or.inr (Or.inr ⟨hs, hck⟩))

/-- C3: with at least one flag true and `Length ≥ 0`, every byte of the returned
`PasswordItself` is an element of the collection of a class whose flag is true. -/
theorem CreateRandomPassword_bytes_selected (G : List Nat → Rat) (rnd : Nat → Nat)
    (ord : Nat → List String) (fuel : Nat) (u l d s : Bool) (Length : Int)
    (hsel : (u || l || d || s) = true) (h0 : 0 ≤ Length)
    (hord : RangesMap (usedMap u l d s) ord) (hfuel : Length.toNat ≤ fuel) :
    ∃ P, CreateRandomPassword G rnd ord fuel u l d s Length = Outcome.done P
      ∧ ∀ c ∈ sliceElems P.PasswordItself,
          (u = true ∧ c ∈ sliceElems SymbolsToUse.UpperLatin.Collection)
            ∨ (l = true ∧ c ∈ sliceElems SymbolsToUse.LowerLatin.Collection)
            ∨ (d = true ∧ c ∈ sliceElems SymbolsToUse.Digits.Collection)
            ∨ (s = true ∧ c ∈ sliceElems SymbolsToUse.Special.Collection) := by
  obtain ⟨shuffled, hrun, -, hmem⟩ :=
    CreateRandomPassword_spec_bytes G rnd ord fuel u l d s Length hsel h0 hord hfuel
  exact ⟨_, hrun, hmem⟩

theorem CreateRandomPassword_bytes_selected_witness :
    ∃ P, CreateRandomPassword (fun _ => 0) (fun i => 5 * i + 1)
          (fun _ => [latinUpperTitle, latinLowerTitle, digitsTitle, specialTitle]) 8
          false true false false 8 = Outcome.done P
      ∧ ∀ c ∈ sliceElems P.PasswordItself,
          (false = true ∧ c ∈ sliceElems SymbolsToUse.UpperLatin.Collection)
            ∨ (true = true ∧ c ∈ sliceElems SymbolsToUse.LowerLatin.Collection)
            ∨ (false = true ∧ c ∈ sliceElems SymbolsToUse.Digits.Collection)
            ∨ (false = true ∧ c ∈ sliceElems SymbolsToUse.Special.Collection) :=
  CreateRandomPassword_bytes_selected (fun _ => 0) (fun i => 5 * i + 1)
    (fun _ => [latinUpperTitle, latinLowerTitle, digitsTitle, specialTitle]) 8
    false true false false 8 (by decide) (by decide) (fun _ => List.Perm.refl _) (by decide)

/-- C6, as stated, fails for a negative length: with the upper-case flag set and
`Length = -1` the fill loop appends nothing, and `rand.Shuffle(-1, ...)` panics. -/
theorem CreateRandomPassword_negative_panics :
    RangesMap (usedMap true false false false)
        (fun _ => [latinUpperTitle, latinLowerTitle, digitsTitle, specialTitle])
      ∧ CreateRandomPassword (fun _ => 0) (fun _ => 0)
          (fun _ => [latinUpperTitle, latinLowerTitle, digitsTitle, specialTitle]) 1
          true false false false (-1) = Outcome.panicked :=
  ⟨fun _ => List.Perm.refl _, by decide⟩

/-- C6, amended: with at least one flag true and `Length = 0`, `CreateRandomPassword`
completes and returns a password with no characters; and for every `Length ≤ 0` the
fill loop runs zero iterations, leaving the password as it was. -/
theorem CreateRandomPassword_zero_length (G : List Nat → Rat) (rnd : Nat → Nat)
    (ord : Nat → List String) (fuel : Nat) (u l d s : Bool)
    (hsel : (u || l || d || s) = true) (hord : RangesMap (usedMap u l d s) ord) :
    CreateRandomPassword G rnd ord fuel u l d s 0
        = Outcome.done
            { PasswordItself := some []
              Length := 0
              currentMissing := 0
              UsedSymbolTypes := usedMap u l d s
              EntropyOfPassword := G [] }
      ∧ ∀ Length : Int, Length ≤ 0 →
          CreateUnShuffledPassword rnd ord fuel 1 (startPassword u l d s Length, 0)
            = Outcome.done (startPassword u l d s Length, 0) := by
  constructor
  · obtain ⟨new, shuffled, hrun, hperm, hlen, -⟩ :=
      CreateRandomPassword_spec G rnd ord fuel u l d s 0 hsel (le_refl _) hord (Nat.zero_le _)
    have hnew : new = [] := List.length_eq_zero.mp (by exact_mod_cast hlen)
    subst hnew
    have hsh : shuffled = [] := hperm.eq_nil
    subst hsh
    exact hrun
  · intro Length hle
    exact CreateUnShuffledPassword_le_zero rnd ord fuel 1 _ 0 hle

theorem CreateRandomPassword_zero_length_witness :
    CreateRandomPassword (fun _ => 0) (fun _ => 0)
        (fun _ => [latinUpperTitle, latinLowerTitle, digitsTitle, specialTitle]) 0
        false false true false 0
        = Outcome.done
            { PasswordItself := some []
              Length := 0
              currentMissing := 0
              UsedSymbolTypes := usedMap false false true false
              EntropyOfPassword := 0 } :=
  (CreateRandomPassword_zero_length (fun _ => 0) (fun _ => 0)
    (fun _ => [latinUpperTitle, latinLowerTitle, digitsTitle, specialTitle]) 0
    false false true false (by decide) (fun _ => List.Perm.refl _)).1

/-! ## The order of the fill -/

theorem selectedCount_eq (u l d s : Bool) :
    selectedCount u l d s = (selectedKeys (mapEntries (usedMap u l d s))).length := by
  cases u <;> cases l <;> cases d <;> cases s <;> rfl

theorem CreateRandomPassword_done_entropy (G : List Nat → Rat) (rnd : Nat → Nat)
    (ord : Nat → List String) (fuel : Nat) (u l d s : Bool) (Length : Int) (P : PasswordStruct)
    (hsel : (u || l || d || s) = true) (hord : (ord 0).Perm (mapKeys (usedMap u l d s)))
    (h : CreateRandomPassword G rnd ord fuel u l d s Length = Outcome.done P) :
    P.EntropyOfPassword = G (sliceElems P.PasswordItself) := by
  rw [CreateRandomPassword_eq,
    CheckIfAnyTypeSelected_usedMap u l d s _ rfl (ord 0) hord, hsel] at h
  simp only [Bool.not_true, Bool.false_eq_true, if_false] at h
  split at h
  · cases h
  · cases h
  · split at h
    · cases h
    · injection h with h
      subst h
      rfl

/-- C13: in every result of `CreateRandomPassword` with at least one flag true,
`EntropyOfPassword` is the entropy function applied to the final, shuffled
`PasswordItself`; hence two calls, whatever their flags and lengths, that return the
same bytes carry the same entropy. -/
theorem entropy_of_output (G : List Nat → Rat) (rnd rnd' : Nat → Nat)
    (ord ord' : Nat → List String) (fuel fuel' : Nat) (u l d s u' l' d' s' : Bool)
    (Length Length' : Int) (P P' : PasswordStruct)
    (hsel : (u || l || d || s) = true) (hsel' : (u' || l' || d' || s') = true)
    (hord : RangesMap (usedMap u l d s) ord) (hord' : RangesMap (usedMap u' l' d' s') ord')
    (h : CreateRandomPassword G rnd ord fuel u l d s Length = Outcome.done P)
    (h' : CreateRandomPassword G rnd' ord' fuel' u' l' d' s' Length' = Outcome.done P') :
    P.EntropyOfPassword = G (sliceElems P.PasswordItself)
      ∧ P'.EntropyOfPassword = G (sliceElems P'.PasswordItself)
      ∧ (sliceElems P.PasswordItself = sliceElems P'.PasswordItself →
          P.EntropyOfPassword = P'.EntropyOfPassword) := by
  have e := CreateRandomPassword_done_entropy G rnd ord fuel u l d s Length P hsel (hord 0) h
  have e' :=
    CreateRandomPassword_done_entropy G rnd' ord' fuel' u' l' d' s' Length' P' hsel' (hord' 0) h'
  refine ⟨e, e', ?_⟩
  intro hb
  rw [e, e', hb]

theorem entropy_of_output_witness :
    (PasswordStruct.mk (some [65]) 1 0 (usedMap true false false false) 1).EntropyOfPassword
      = (PasswordStruct.mk (some [65]) 1 0 (usedMap true true false false) 1).EntropyOfPassword :=
  (entropy_of_output (fun p => (p.length : Rat)) (fun _ => 0) (fun _ => 0)
    (fun _ => [latinUpperTitle, latinLowerTitle, digitsTitle, specialTitle])
    (fun _ => [latinUpperTitle, latinLowerTitle, digitsTitle, specialTitle]) 1 1
    true false false false true true false false 1 1
    (PasswordStruct.mk (some [65]) 1 0 (usedMap true false false false) 1)
    (PasswordStruct.mk (some [65]) 1 0 (usedMap true true false false) 1)
    (by decide) (by decide) (fun _ => List.Perm.refl _) (fun _ => List.Perm.refl _)
    (by decide) (by decide)).2.2 rfl

/-! ## DisplayPassword -/

/-- C14 does not hold of the code: the `if` of `DisplayPassword` lacks a `return`.  On
the nil receiver it prints the message and then panics; on the empty sentinel (nil
`PasswordItself`) it prints the message and then an empty line; only for a password
with a non-nil `PasswordItself` does it print exactly one thing, the bytes as text. -/
theorem DisplayPassword_behaviour :
    DisplayPassword none = ([emptyMessage], Outcome.panicked)
      ∧ DisplayPassword (some emptyPasswordStruct) = ([emptyMessage, []], Outcome.done ())
      ∧ ∀ (P : PasswordStruct) (bytes : List Nat), P.PasswordItself = some bytes →
          DisplayPassword (some P) = ([bytes], Outcome.done ()) := by
  refine ⟨rfl, rfl, ?_⟩
  intro P bytes h
  simp [DisplayPassword, h, sliceElems]

theorem DisplayPassword_behaviour_witness :
    DisplayPassword (some (PasswordStruct.mk (some [65, 97]) 2 0 none 0))
      = ([[65, 97]], Outcome.done ()) :=
  DisplayPassword_behaviour.2.2 (PasswordStruct.mk (some [65, 97]) 2 0 none 0) [65, 97] rfl

/-! ## CheckIfAnyTypeSelected -/

theorem selectedKeys_ne_nil_iff (es : List (String × Bool)) :
    selectedKeys es ≠ [] ↔ ∃ e ∈ es, e.2 = true := by
  induction es with
  | nil => simp [selectedKeys]
  | cons a rest ih =>
    obtain ⟨k, b⟩ := a
    cases b
    · have e : selectedKeys ((k, false) :: rest) = selectedKeys rest := by simp [selectedKeys]
      rw [e, ih]
      simp
    · have e : selectedKeys ((k, true) :: rest) = k :: selectedKeys rest := by
        simp [selectedKeys]
      rw [e]
      simp

theorem CheckIfAnyTypeSelected_eq (ps : PasswordStruct) (ks : List String)
    (hnd : (mapKeys ps.UsedSymbolTypes).Nodup) (hks : ks.Perm (mapKeys ps.UsedSymbolTypes)) :
    CheckIfAnyTypeSelected ps ks = firstSelected (mapEntries ps.UsedSymbolTypes) := by
  unfold CheckIfAnyTypeSelected
  exact firstSelected_perm _ _ (mapRange_perm _ _ hnd hks)

/-- C16: for a map with distinct keys and every key order of the range,
`CheckIfAnyTypeSelected` returns `true` exactly when some entry of `UsedSymbolTypes` is
`true`; it returns `false` for the nil and for the empty map; and on the password
`CreateRandomPassword` builds it is `true` exactly when one of the four flags is. -/
theorem CheckIfAnyTypeSelected_iff :
    (∀ (ps : PasswordStruct) (ks : List String),
        (mapKeys ps.UsedSymbolTypes).Nodup → ks.Perm (mapKeys ps.UsedSymbolTypes) →
        (CheckIfAnyTypeSelected ps ks = true ↔ ∃ e ∈ mapEntries ps.UsedSymbolTypes, e.2 = true))
      ∧ (∀ (ps : PasswordStruct) (ks : List String),
          (ps.UsedSymbolTypes = none ∨ ps.UsedSymbolTypes = some []) →
          ks.Perm (mapKeys ps.UsedSymbolTypes) → CheckIfAnyTypeSelected ps ks = false)
      ∧ (∀ (u l d s : Bool) (Length : Int) (ks : List String),
          ks.Perm (mapKeys (usedMap u l d s)) →
          (CheckIfAnyTypeSelected (startPassword u l d s Length) ks = true
            ↔ (u = true ∨ l = true ∨ d = true ∨ s = true))) := by
  refine ⟨?_, ?_, ?_⟩
  · intro ps ks hnd hks
    rw [CheckIfAnyTypeSelected_eq ps ks hnd hks, firstSelected_iff, selectedKeys_ne_nil_iff]
  · intro ps ks hm hks
    have hk : mapKeys ps.UsedSymbolTypes = [] := by
      rcases hm with h | h <;> rw [h] <;> rfl
    rw [hk] at hks
    have : ks = [] := hks.eq_nil
    subst this
    rfl
  · intro u l d s Length ks hks
    rw [CheckIfAnyTypeSelected_usedMap u l d s _ rfl ks hks]
    cases u <;> cases l <;> cases d <;> cases s <;> simp

theorem CheckIfAnyTypeSelected_iff_witness :
    CheckIfAnyTypeSelected (startPassword false false true false 4)
        [specialTitle, digitsTitle, latinLowerTitle, latinUpperTitle] = true
      ↔ ∃ e ∈ mapEntries (startPassword false false true false 4).UsedSymbolTypes, e.2 = true :=
  CheckIfAnyTypeSelected_iff.1 (startPassword false false true false 4)
    [specialTitle, digitsTitle, latinLowerTitle, latinUpperTitle] (by decide)
    (List.reverse_perm [latinUpperTitle, latinLowerTitle, digitsTitle, specialTitle])

/-! ## Every call returns -/

theorem CreateRandomPassword_total (G : List Nat → Rat) (rnd : Nat → Nat)
    (ord : Nat → List String) (fuel : Nat) (u l d s : Bool) (Length : Int)
    (h0 : 0 ≤ Length) (hord : RangesMap (usedMap u l d s) ord) (hfuel : Length.toNat ≤ fuel) :
    ∃ P, CreateRandomPassword G rnd ord fuel u l d s Length = Outcome.done P
      ∧ P.Length = ((sliceElems P.PasswordItself).length : Int)
      ∧ P.currentMissing = 0 := by
  by_cases hsel : (u || l || d || s) = true
  · obtain ⟨new, shuffled, hrun, hperm, hlen, -⟩ :=
      CreateRandomPassword_spec G rnd ord fuel u l d s Length hsel h0 hord hfuel
    refine ⟨_, hrun, ?_, rfl⟩
    simp only [sliceElems]
    rw [hperm.length_eq, hlen]
  · have hall : u = false ∧ l = false ∧ d = false ∧ s = false := by
      cases u <;> cases l <;> cases d <;> cases s <;> simp at hsel ⊢
    obtain ⟨rfl, rfl, rfl, rfl⟩ := hall
    refine ⟨emptyPasswordStruct, ?_, rfl, rfl⟩
    rw [CreateRandomPassword_eq]
    have h : CheckIfAnyTypeSelected (startPassword false false false false Length) (ord 0)
        = false := firstSelected_all_false (ord 0)
    rw [h]
    rfl

/-- C15: each built-in class has a non-empty collection whose size is its
`TypeSliceLength` (26, 26, 10, 13), `KeyToCollectionMap` holds those classes under the
four titles, `RandomCharacter` on them never panics, and so, for every flag
combination and every `Length ≥ 0`, `CreateRandomPassword` runs to its end. -/
theorem builtin_generation_never_fails (G : List Nat → Rat) (rnd : Nat → Nat)
    (ord : Nat → List String) (fuel : Nat) (u l d s : Bool) (Length : Int)
    (h0 : 0 ≤ Length) (hord : RangesMap (usedMap u l d s) ord) (hfuel : Length.toNat ≤ fuel) :
    (((sliceElems SymbolsToUse.UpperLatin.Collection).length : Int) = 26
        ∧ SymbolsToUse.UpperLatin.TypeSliceLength = 26
        ∧ ((sliceElems SymbolsToUse.LowerLatin.Collection).length : Int) = 26
        ∧ SymbolsToUse.LowerLatin.TypeSliceLength = 26
        ∧ ((sliceElems SymbolsToUse.Digits.Collection).length : Int) = 10
        ∧ SymbolsToUse.Digits.TypeSliceLength = 10
        ∧ ((sliceElems SymbolsToUse.Special.Collection).length : Int) = 13
        ∧ SymbolsToUse.Special.TypeSliceLength = 13)
      ∧ (KeyToCollectionMap latinUpperTitle = SymbolsToUse.UpperLatin
        ∧ KeyToCollectionMap latinLowerTitle = SymbolsToUse.LowerLatin
        ∧ KeyToCollectionMap digitsTitle = SymbolsToUse.Digits
        ∧ KeyToCollectionMap specialTitle = SymbolsToUse.Special)
      ∧ (∀ t ∈ mapKeys (usedMap u l d s), ∀ raw,
          ∃ c, RandomCharacter (KeyToCollectionMap t) raw = some c)
      ∧ ∃ P, CreateRandomPassword G rnd ord fuel u l d s Length = Outcome.done P := by
  refine ⟨by decide, KeyToCollectionMap_titles, ?_, ?_⟩
  · intro t ht raw
    obtain ⟨h1, h2, h3, h4⟩ := KeyToCollectionMap_titles
    obtain ⟨b1, b2, b3, b4⟩ := builtin_inBounds
    rw [mapKeys_usedMap] at ht
    simp only [List.mem_cons, List.mem_singleton, List.not_mem_nil, or_false] at ht
    have hb : (KeyToCollectionMap t).InBounds := by
      rcases ht with rfl | rfl | rfl | rfl
      · rw [h1]; exact b1
      · rw [h2]; exact b2
      · rw [h3]; exact b3
      · rw [h4]; exact b4
    obtain ⟨c, hc, -⟩ := RandomCharacter_inBounds _ raw hb
    exact ⟨c, hc⟩
  · obtain ⟨P, hP, -⟩ := CreateRandomPassword_total G rnd ord fuel u l d s Length h0 hord hfuel
    exact ⟨P, hP⟩

theorem builtin_generation_never_fails_witness :
    ∃ P, CreateRandomPassword (fun _ => 0) (fun i => 3 * i)
        (fun _ => [latinUpperTitle, latinLowerTitle, digitsTitle, specialTitle]) 6
        true false true true 6 = Outcome.done P :=
  (builtin_generation_never_fails (fun _ => 0) (fun i => 3 * i)
    (fun _ => [latinUpperTitle, latinLowerTitle, digitsTitle, specialTitle]) 6
    true false true true 6 (by decide) (fun _ => List.Perm.refl _) (by decide)).2.2.2

/-- C18: for every flag combination, all false included, and every `Length ≥ 0`, the
value `CreateRandomPassword` returns has its `Length` field equal to the number of
bytes of `PasswordItself` and its `currentMissing` counter equal to 0. -/
theorem CreateRandomPassword_invariant (G : List Nat → Rat) (rnd : Nat → Nat)
    (ord : Nat → List String) (fuel : Nat) (u l d s : Bool) (Length : Int)
    (h0 : 0 ≤ Length) (hord : RangesMap (usedMap u l d s) ord) (hfuel : Length.toNat ≤ fuel) :
    ∃ P, CreateRandomPassword G rnd ord fuel u l d s Length = Outcome.done P
      ∧ P.Length = ((sliceElems P.PasswordItself).length : Int)
      ∧ P.currentMissing = 0 :=
  CreateRandomPassword_total G rnd ord fuel u l d s Length h0 hord hfuel

theorem CreateRandomPassword_invariant_witness :
    (∃ P, CreateRandomPassword (fun _ => 0) (fun i => i)
        (fun _ => [latinUpperTitle, latinLowerTitle, digitsTitle, specialTitle]) 5
        false false false false 5 = Outcome.done P
      ∧ P.Length = ((sliceElems P.PasswordItself).length : Int)
      ∧ P.currentMissing = 0)
    ∧ ∃ P, CreateRandomPassword (fun _ => 0) (fun i => 7 * i + 3)
        (fun _ => [latinUpperTitle, latinLowerTitle, digitsTitle, specialTitle]) 12
        true true true true 12 = Outcome.done P
      ∧ P.Length = ((sliceElems P.PasswordItself).length : Int)
      ∧ P.currentMissing = 0 :=
  ⟨CreateRandomPassword_invariant (fun _ => 0) (fun i => i)
      (fun _ => [latinUpperTitle, latinLowerTitle, digitsTitle, specialTitle]) 5
      false false false false 5 (by decide) (fun _ => List.Perm.refl _) (by decide),
    CreateRandomPassword_invariant (fun _ => 0) (fun i => 7 * i + 3)
      (fun _ => [latinUpperTitle, latinLowerTitle, digitsTitle, specialTitle]) 12
      true true true true 12 (by decide) (fun _ => List.Perm.refl _) (by decide)⟩

/-! ## Classes and the bytes they contribute -/

theorem forall₂_mem_right {R : Nat → String → Prop} {l₁ : List Nat} {l₂ : List String}
    (h : List.Forall₂ R l₁ l₂) : ∀ k ∈ l₂, ∃ c ∈ l₁, R c k := by
  induction h with
  | nil => intro k hk; cases hk
  | cons hab _ ih =>
    intro k hk
    rcases List.mem_cons.mp hk with rfl | hk
    · exact ⟨_, List.mem_cons_self _ _, hab⟩
    · obtain ⟨c, hc, hr⟩ := ih k hk
      exact ⟨c, List.mem_cons_of_mem _ hc, hr⟩

theorem builtinTitles_inBounds : ∀ t ∈ builtinTitles, (KeyToCollectionMap t).InBounds := by
  decide

theorem inClass_builtin (c : Nat) (t : String) (h : inClass c t) : t ∈ builtinTitles := by
  unfold inClass KeyToCollectionMap at h
  split at h
  · rename_i e he
    have hmem := List.mem_of_find?_eq_some he
    have hkey := List.find?_some he
    have : e.1 = t := by simpa using hkey
    rw [← this]
    exact List.mem_map_of_mem Prod.fst hmem
  · simp [zeroSymbolType, sliceElems] at h

theorem inClass_unique_aux :
    ∀ t ∈ builtinTitles, ∀ t' ∈ builtinTitles,
      ∀ c ∈ sliceElems (KeyToCollectionMap t).Collection, inClass c t' → t = t' := by
  decide

theorem inClass_unique (c : Nat) (t t' : String) (h : inClass c t) (h' : inClass c t') :
    t = t' :=
  inClass_unique_aux t (inClass_builtin c t h) t' (inClass_builtin c t' h') c h h'

theorem mapIndex_true_mem (m : Option (List (String × Bool))) (t : String)
    (h : mapIndex m t = true) : t ∈ selectedKeys (mapEntries m) := by
  unfold mapIndex at h
  split at h
  · rename_i e he
    have hmem := List.mem_of_find?_eq_some he
    have hkey : e.1 = t := by simpa using List.find?_some he
    unfold selectedKeys
    exact List.mem_map.mpr ⟨e, List.mem_filter.mpr ⟨hmem, h⟩, hkey⟩
  · cases h

theorem mapIndex_of_selected (m : Option (List (String × Bool))) (t : String)
    (hnd : (mapKeys m).Nodup) (h : t ∈ selectedKeys (mapEntries m)) : mapIndex m t = true := by
  unfold selectedKeys at h
  obtain ⟨e, he, rfl⟩ := List.mem_map.mp h
  obtain ⟨hmem, hb⟩ := List.mem_filter.mp he
  unfold mapIndex
  rw [find?_key_of_nodup (mapEntries m) hnd e hmem]
  exact hb

theorem CreateRandomPassword_spec_classes (G : List Nat → Rat) (rnd : Nat → Nat)
    (ord : Nat → List String) (fuel : Nat) (u l d s : Bool) (Length : Int)
    (hsel : (u || l || d || s) = true) (h0 : 0 ≤ Length)
    (hord : RangesMap (usedMap u l d s) ord) (hfuel : Length.toNat ≤ fuel) :
    ∃ shuffled : List Nat,
      CreateRandomPassword G rnd ord fuel u l d s Length
          = Outcome.done
              { PasswordItself := some shuffled
                Length := Length
                currentMissing := 0
                UsedSymbolTypes := usedMap u l d s
                EntropyOfPassword := G shuffled }
        ∧ (∀ c ∈ shuffled, ∃ t ∈ selectedKeys (mapEntries (usedMap u l d s)), inClass c t)
        ∧ ((selectedCount u l d s : Int) ≤ Length →
            ∀ t ∈ selectedKeys (mapEntries (usedMap u l d s)), ∃ c ∈ shuffled, inClass c t) := by
  obtain ⟨new, shuffled, hrun, hperm, hlen, hall⟩ :=
    CreateRandomPassword_spec G rnd ord fuel u l d s Length hsel h0 hord hfuel
  refine ⟨shuffled, hrun, ?_, ?_⟩
  · intro c hc
    obtain ⟨k, hk, hck⟩ := forall₂_mem_left hall c (hperm.subset hc)
    obtain ⟨p, hp⟩ := mem_schedule _ _ _ _ _ (List.mem_of_mem_take hk)
    exact ⟨k, (selectedKeys_range_perm u l d s ord hord p).subset hp, hck⟩
  · intro hk t ht
    have hpos : 0 < selectedCount u l d s := by
      rw [selectedCount_eq]
      exact List.length_pos.mpr (selectedKeys_usedMap_ne_nil u l d s hsel)
    obtain ⟨f, rfl⟩ : ∃ f, fuel = f + 1 := ⟨fuel - 1, by omega⟩
    have hp1 := selectedKeys_range_perm u l d s ord hord 1
    have hlen1 : (selectedKeys (mapRange (usedMap u l d s) (ord 1))).length ≤ Length.toNat := by
      rw [hp1.length_eq, ← selectedCount_eq]
      omega
    have hmem : t ∈ (schedule (usedMap u l d s) ord (f + 1) 1).take Length.toNat := by
      simp only [schedule]
      rw [List.take_append_eq_append_take, List.take_of_length_le hlen1]
      exact List.mem_append_left _ (hp1.symm.subset ht)
    obtain ⟨c, hc, hct⟩ := forall₂_mem_right hall t hmem
    exact ⟨c, hperm.symm.subset hc, hct⟩

/-- C17: with `k ≥ 1` selected classes and `Length ≥ k`, whatever the random source
delivers and in whatever order the map is ranged over, the password returned by
`CreateRandomPassword` holds at least one byte from the collection of each selected
class. -/
theorem every_selected_class_present (G : List Nat → Rat) (rnd : Nat → Nat)
    (ord : Nat → List String) (fuel : Nat) (u l d s : Bool) (Length : Int)
    (hsel : (u || l || d || s) = true) (hk : (selectedCount u l d s : Int) ≤ Length)
    (hord : RangesMap (usedMap u l d s) ord) (hfuel : Length.toNat ≤ fuel) :
    ∃ P, CreateRandomPassword G rnd ord fuel u l d s Length = Outcome.done P
      ∧ ∀ t ∈ selectedKeys (mapEntries (usedMap u l d s)),
          ∃ c ∈ sliceElems P.PasswordItself, inClass c t := by
  obtain ⟨shuffled, hrun, -, hpres⟩ :=
    CreateRandomPassword_spec_classes G rnd ord fuel u l d s Length hsel (by omega) hord hfuel
  exact ⟨_, hrun, hpres hk⟩

theorem every_selected_class_present_witness :
    ∃ P, CreateRandomPassword (fun _ => 0) (fun i => 2 * i)
        (fun _ => [latinUpperTitle, latinLowerTitle, digitsTitle, specialTitle]) 3
        true true false true 3 = Outcome.done P
      ∧ ∀ t ∈ selectedKeys (mapEntries (usedMap true true false true)),
          ∃ c ∈ sliceElems P.PasswordItself, inClass c t :=
  every_selected_class_present (fun _ => 0) (fun i => 2 * i)
    (fun _ => [latinUpperTitle, latinLowerTitle, digitsTitle, specialTitle]) 3
    true true false true 3 (by decide) (by decide) (fun _ => List.Perm.refl _) (by decide)

/-- C12, as stated, fails: with the upper- and lower-case flags set and length 1 the
result can be the single byte `A`; `LowerLatin` is marked `true` in `UsedSymbolTypes`
although no byte of the password comes from its collection. -/
theorem recorded_class_without_byte :
    RangesMap (usedMap true true false false)
        (fun _ => [latinUpperTitle, latinLowerTitle, digitsTitle, specialTitle])
      ∧ CreateRandomPassword (fun _ => 0) (fun _ => 0)
          (fun _ => [latinUpperTitle, latinLowerTitle, digitsTitle, specialTitle]) 1
          true true false false 1
          = Outcome.done
              { PasswordItself := some [65]
                Length := 1
                currentMissing := 0
                UsedSymbolTypes := usedMap true true false false
                EntropyOfPassword := 0 }
      ∧ mapIndex (usedMap true true false false) latinLowerTitle = true
      ∧ ¬ ∃ c ∈ [65], inClass c latinLowerTitle :=
  ⟨fun _ => List.Perm.refl _, by decide, by decide, by decide⟩

/-- C12, amended: `UsedSymbolTypes` of the result records the four flags as requested.
Every class that contributed a byte to `PasswordItself` is marked `true`; a class marked
`true` has contributed a byte whenever `Length` is at least the number of selected
classes. -/
theorem recorded_classes (G : List Nat → Rat) (rnd : Nat → Nat)
    (ord : Nat → List String) (fuel : Nat) (u l d s : Bool) (Length : Int)
    (hsel : (u || l || d || s) = true) (h0 : 0 ≤ Length)
    (hord : RangesMap (usedMap u l d s) ord) (hfuel : Length.toNat ≤ fuel) :
    ∃ P, CreateRandomPassword G rnd ord fuel u l d s Length = Outcome.done P
      ∧ P.UsedSymbolTypes = usedMap u l d s
      ∧ ∀ t : String,
          ((∃ c ∈ sliceElems P.PasswordItself, inClass c t) → mapIndex P.UsedSymbolTypes t = true)
            ∧ ((selectedCount u l d s : Int) ≤ Length → mapIndex P.UsedSymbolTypes t = true →
                ∃ c ∈ sliceElems P.PasswordItself, inClass c t) := by
  obtain ⟨shuffled, hrun, hmem, hpres⟩ :=
    CreateRandomPassword_spec_classes G rnd ord fuel u l d s Length hsel h0 hord hfuel
  refine ⟨_, hrun, rfl, ?_⟩
  intro t
  constructor
  · rintro ⟨c, hc, hct⟩
    obtain ⟨t', ht', hct'⟩ := hmem c hc
    have : t = t' := inClass_unique c t t' hct hct'
    subst this
    exact mapIndex_of_selected _ t (mapKeys_usedMap_nodup u l d s) ht'
  · intro hk ht
    exact hpres hk t (mapIndex_true_mem _ t ht)

theorem recorded_classes_witness :
    ∃ P, CreateRandomPassword (fun _ => 0) (fun i => i)
        (fun _ => [latinUpperTitle, latinLowerTitle, digitsTitle, specialTitle]) 2
        false true true false 2 = Outcome.done P
      ∧ P.UsedSymbolTypes = usedMap false true true false :=
  (recorded_classes (fun _ => 0) (fun i => i)
    (fun _ => [latinUpperTitle, latinLowerTitle, digitsTitle, specialTitle]) 2
    false true true false 2 (by decide) (by decide) (fun _ => List.Perm.refl _)
    (by decide)).imp fun _ h => ⟨h.1, h.2.1⟩

/-! ## Termination of the fill loop -/

theorem Fillable_of_marked (m : Option (List (String × Bool))) (ord : Nat → List String)
    (hnd : (mapKeys m).Nodup) (hord : RangesMap m ord)
    (hsel : ∃ e ∈ mapEntries m, e.2 = true)
    (hpres : ∀ e ∈ mapEntries m, e.2 = true → e.1 ∈ builtinTitles) :
    Fillable m ord := by
  intro p
  have hp : (selectedKeys (mapRange m (ord p))).Perm (selectedKeys (mapEntries m)) :=
    selectedKeys_perm _ _ (mapRange_perm m (ord p) hnd (hord p))
  constructor
  · intro heq
    rw [heq] at hp
    exact (selectedKeys_ne_nil_iff _).mpr hsel hp.symm.eq_nil
  · intro k hk
    have hk' := hp.subset hk
    unfold selectedKeys at hk'
    obtain ⟨e, he, rfl⟩ := List.mem_map.mp hk'
    obtain ⟨hmem, hb⟩ := List.mem_filter.mp he
    exact builtinTitles_inBounds _ (hpres e hmem hb)

theorem fillPass_decreases (rnd : Nat → Nat) (es : List (String × Bool))
    (P : PasswordStruct) (drawn : Nat)
    (hne : selectedKeys es ≠ [])
    (hok : ∀ k ∈ selectedKeys es, (KeyToCollectionMap k).InBounds)
    (hpos : 0 < P.currentMissing) :
    ∃ P' drawn', fillPass rnd es (P, drawn) = some (P', drawn')
      ∧ P'.currentMissing < P.currentMissing := by
  obtain ⟨new, hrun, hall⟩ := fillPass_spec rnd es P drawn hok
  refine ⟨_, _, hrun, ?_⟩
  have hlen := hall.length_eq
  rw [List.length_take] at hlen
  have h1 := List.length_pos.mpr hne
  rw [missing_appendBytes]
  omega

/-- C19: from every password state whose map (distinct keys) marks at least one class
`true`, all marked titles being keys of `KeyToCollectionMap`, `CreateUnShuffledPassword`
terminates within `max(currentMissing, 0)` iterations of its outer loop, appending
exactly `max(currentMissing, 0)` bytes behind the bytes already present and leaving
`Length` and `UsedSymbolTypes` as they were; and every pass over the map entered with
`currentMissing > 0` strictly decreases `currentMissing`. -/
theorem CreateUnShuffledPassword_terminates (rnd : Nat → Nat) (ord : Nat → List String)
    (fuel ranged : Nat) (P : PasswordStruct) (drawn : Nat)
    (hnd : (mapKeys P.UsedSymbolTypes).Nodup) (hord : RangesMap P.UsedSymbolTypes ord)
    (hsel : ∃ e ∈ mapEntries P.UsedSymbolTypes, e.2 = true)
    (hpres : ∀ e ∈ mapEntries P.UsedSymbolTypes, e.2 = true → e.1 ∈ builtinTitles)
    (hfuel : P.currentMissing.toNat ≤ fuel) :
    (∃ (new : List Nat) (P' : PasswordStruct) (drawn' : Nat),
        CreateUnShuffledPassword rnd ord fuel ranged (P, drawn) = Outcome.done (P', drawn')
          ∧ sliceElems P'.PasswordItself = sliceElems P.PasswordItself ++ new
          ∧ (new.length : Int) = max P.currentMissing 0
          ∧ P'.currentMissing = P.currentMissing - (new.length : Int)
          ∧ P'.Length = P.Length
          ∧ P'.UsedSymbolTypes = P.UsedSymbolTypes)
      ∧ ∀ (Q : PasswordStruct) (r dq : Nat),
          Q.UsedSymbolTypes = P.UsedSymbolTypes → 0 < Q.currentMissing →
          ∃ Q' dq', fillPass rnd (mapRange Q.UsedSymbolTypes (ord r)) (Q, dq) = some (Q', dq')
            ∧ Q'.currentMissing < Q.currentMissing := by
  have hfill := Fillable_of_marked P.UsedSymbolTypes ord hnd hord hsel hpres
  constructor
  · obtain ⟨new, hrun, hall⟩ := CreateUnShuffledPassword_spec rnd ord fuel ranged P drawn hfill hfuel
    refine ⟨new, _, _, hrun, sliceElems_appendBytes P new, ?_, rfl, rfl, rfl⟩
    have hsched := schedule_length_ge P.UsedSymbolTypes ord (fun p => (hfill p).1) fuel ranged
    have hlen := hall.length_eq
    rw [List.length_take] at hlen
    omega
  · intro Q r dq hQ hpos
    rw [hQ]
    exact fillPass_decreases rnd _ Q dq (hfill r).1 (hfill r).2 hpos

theorem CreateUnShuffledPassword_terminates_witness :
    ∃ (new : List Nat) (P' : PasswordStruct) (drawn' : Nat),
      CreateUnShuffledPassword (fun i => i) (fun _ => [digitsTitle, specialTitle]) 3 0
          (PasswordStruct.mk (some [120]) 9 3 (some [(digitsTitle, true), (specialTitle, false)]) 0,
            0)
          = Outcome.done (P', drawn')
        ∧ sliceElems P'.PasswordItself = [120] ++ new
        ∧ (new.length : Int) = max 3 0 := by
  obtain ⟨new, P', drawn', h1, h2, h3, -⟩ :=
    (CreateUnShuffledPassword_terminates (fun i => i) (fun _ => [digitsTitle, specialTitle]) 3 0
      (PasswordStruct.mk (some [120]) 9 3 (some [(digitsTitle, true), (specialTitle, false)]) 0) 0
      (by decide) (fun _ => List.Perm.refl _) (by decide) (by decide) (by decide)).1
  exact ⟨new, P', drawn', h1, h2, h3⟩

/-! ## Distribution over the classes -/

theorem ceil_div (n k : Nat) (hk : 0 < k) :
    (n + k - 1) / k = n / k + (if n % k = 0 then 0 else 1) := by
  have hn := Nat.div_add_mod n k
  have hr := Nat.mod_lt n hk
  by_cases h0 : n % k = 0
  · rw [if_pos h0]
    have e : n + k - 1 = (k - 1) + k * (n / k) := by omega
    rw [e, Nat.add_mul_div_left _ _ hk, Nat.div_eq_of_lt (by omega)]
    omega
  · rw [if_neg h0]
    have e : n + k - 1 = (n % k - 1) + k * (n / k + 1) := by
      rw [Nat.mul_add]
      omega
    rw [e, Nat.add_mul_div_left _ _ hk, Nat.div_eq_of_lt (by omega)]
    omega

theorem sum_indicator_eq_count (ts : List String) (a : String) :
    (ts.map (fun t => if a == t then 1 else 0)).sum = ts.count a := by
  induction ts with
  | nil => rfl
  | cons b rest ih =>
    simp only [List.map_cons, List.sum_cons, List.count_cons, ih]
    by_cases h : a = b
    · subst h; simp; omega
    · have h' : ¬ b = a := fun e => h e.symm
      simp [h, h']

theorem sum_count_eq_length (ts ks : List String) (hnd : ts.Nodup) (hsub : ∀ k ∈ ks, k ∈ ts) :
    (ts.map (fun t => ks.count t)).sum = ks.length := by
  induction ks with
  | nil => simp
  | cons a rest ih =>
    have hrest := ih (fun k hk => hsub k (List.mem_cons_of_mem _ hk))
    have ha := hsub a (List.mem_cons_self _ _)
    simp only [List.count_cons, List.length_cons]
    rw [List.sum_map_add, hrest, sum_indicator_eq_count, List.count_eq_one_of_mem hnd ha]

theorem classCount_eq_count {new : List Nat} {keys : List String}
    (h : List.Forall₂ inClass new keys) (t : String) :
    classCount t new = keys.count t := by
  induction h with
  | nil => rfl
  | @cons c k _ _ hab _ ih =>
    unfold classCount at ih ⊢
    rw [List.countP_cons, List.count_cons, ih]
    by_cases hkt : k = t
    · subst hkt
      simp [hab]
    · have hn : ¬ inClass c t := fun hct => hkt (inClass_unique c k t hab hct)
      simp [hkt, hn]

theorem count_take_schedule (m : Option (List (String × Bool))) (ord : Nat → List String)
    (kk : Nat) (t : String) (hk : 0 < kk)
    (hnd : ∀ p, (selectedKeys (mapRange m (ord p))).Nodup)
    (hlen : ∀ p, (selectedKeys (mapRange m (ord p))).length = kk)
    (hmem : ∀ p, t ∈ selectedKeys (mapRange m (ord p))) :
    ∀ (passes ranged n : Nat), n ≤ passes * kk →
      ((schedule m ord passes ranged).take n).count t
        = n / kk + ((selectedKeys (mapRange m (ord (ranged + n / kk)))).take (n % kk)).count t := by
  intro passes
  induction passes with
  | zero =>
    intro ranged n hn
    have : n = 0 := by omega
    subst this
    simp [schedule]
  | succ p ih =>
    intro ranged n hn
    simp only [schedule]
    rw [List.take_append_eq_append_take, List.count_append, hlen]
    by_cases hlt : n < kk
    · rw [Nat.div_eq_of_lt hlt, Nat.mod_eq_of_lt hlt, Nat.add_zero,
        show n - kk = 0 by omega, List.take_zero]
      simp
    · have hge : kk ≤ n := by omega
      rw [List.take_of_length_le (by rw [hlen]; exact hge),
        List.count_eq_one_of_mem (hnd ranged) (hmem ranged),
        ih (ranged + 1) (n - kk) (by rw [Nat.succ_mul] at hn; omega),
        Nat.mod_eq_sub_mod hge, Nat.div_eq_sub_div hk hge,
        show ranged + 1 + (n - kk) / kk = ranged + ((n - kk) / kk + 1) by
          rw [Nat.add_assoc, Nat.add_comm 1]]
      omega

theorem selectedKeys_usedMap_nodup (u l d s : Bool) :
    (selectedKeys (mapEntries (usedMap u l d s))).Nodup := by
  cases u <;> cases l <;> cases d <;> cases s <;> decide

/-- C11: with `k ≥ 1` selected classes and `Length = n ≥ 0`, whatever the random source
delivers and in whatever order the map is ranged over, the number of bytes of the
returned password that belong to a selected class is `n / k` rounded down or rounded
up; the numbers of two selected classes differ by at most 1, and the numbers of all
selected classes add up to `n`. -/
theorem near_even_distribution (G : List Nat → Rat) (rnd : Nat → Nat)
    (ord : Nat → List String) (fuel : Nat) (u l d s : Bool) (Length : Int)
    (hsel : (u || l || d || s) = true) (h0 : 0 ≤ Length)
    (hord : RangesMap (usedMap u l d s) ord) (hfuel : Length.toNat ≤ fuel) :
    ∃ P, CreateRandomPassword G rnd ord fuel u l d s Length = Outcome.done P
      ∧ (∀ t ∈ selectedKeys (mapEntries (usedMap u l d s)),
          classCount t (sliceElems P.PasswordItself) = Length.toNat / selectedCount u l d s
            ∨ classCount t (sliceElems P.PasswordItself)
                = (Length.toNat + selectedCount u l d s - 1) / selectedCount u l d s)
      ∧ (∀ t ∈ selectedKeys (mapEntries (usedMap u l d s)),
          ∀ t' ∈ selectedKeys (mapEntries (usedMap u l d s)),
            classCount t (sliceElems P.PasswordItself)
              ≤ classCount t' (sliceElems P.PasswordItself) + 1)
      ∧ ((selectedKeys (mapEntries (usedMap u l d s))).map
          (fun t => classCount t (sliceElems P.PasswordItself))).sum = Length.toNat := by
  obtain ⟨new, shuffled, hrun, hperm, hlen, hall⟩ :=
    CreateRandomPassword_spec G rnd ord fuel u l d s Length hsel h0 hord hfuel
  have hrange := selectedKeys_range_perm u l d s ord hord
  have hndsel := selectedKeys_usedMap_nodup u l d s
  have hpos : 0 < selectedCount u l d s := by
    rw [selectedCount_eq]
    exact List.length_pos.mpr (selectedKeys_usedMap_ne_nil u l d s hsel)
  have hkk : ∀ p, (selectedKeys (mapRange (usedMap u l d s) (ord p))).length
      = selectedCount u l d s := by
    intro p
    rw [selectedCount_eq, (hrange p).length_eq]
  have hnd : ∀ p, (selectedKeys (mapRange (usedMap u l d s) (ord p))).Nodup :=
    fun p => (hrange p).nodup_iff.mpr hndsel
  have hcount : ∀ t, classCount t shuffled
      = ((schedule (usedMap u l d s) ord fuel 1).take Length.toNat).count t := by
    intro t
    rw [← classCount_eq_count hall t]
    exact hperm.countP_eq _
  have hbound : Length.toNat ≤ fuel * selectedCount u l d s :=
    le_trans hfuel (Nat.le_mul_of_pos_right _ hpos)
  have hsplit : ∀ t ∈ selectedKeys (mapEntries (usedMap u l d s)),
      ∃ r, classCount t shuffled = Length.toNat / selectedCount u l d s + r ∧ r ≤ 1
        ∧ (Length.toNat % selectedCount u l d s = 0 → r = 0) := by
    intro t ht
    refine ⟨((selectedKeys (mapRange (usedMap u l d s)
        (ord (1 + Length.toNat / selectedCount u l d s)))).take
          (Length.toNat % selectedCount u l d s)).count t, ?_, ?_, ?_⟩
    · rw [hcount t]
      exact count_take_schedule _ ord _ t hpos hnd hkk (fun p => (hrange p).symm.subset ht)
        fuel 1 Length.toNat hbound
    · exact List.nodup_iff_count_le_one.mp ((hnd _).sublist (List.take_sublist _ _)) t
    · intro hz
      rw [hz, List.take_zero]
      rfl
  have hceil := ceil_div Length.toNat (selectedCount u l d s) hpos
  refine ⟨_, hrun, ?_, ?_, ?_⟩
  · intro t ht
    obtain ⟨r, hr, hr1, hr0⟩ := hsplit t ht
    simp only [sliceElems]
    by_cases hz : Length.toNat % selectedCount u l d s = 0
    · left
      rw [hr, hr0 hz]
      rfl
    · rw [hceil, if_neg hz, hr]
      omega
  · intro t ht t' ht'
    obtain ⟨r, hr, hr1, -⟩ := hsplit t ht
    obtain ⟨r', hr', -, -⟩ := hsplit t' ht'
    simp only [sliceElems]
    omega
  · simp only [sliceElems]
    have hfun : (fun t => classCount t shuffled)
        = fun t => ((schedule (usedMap u l d s) ord fuel 1).take Length.toNat).count t :=
      funext hcount
    rw [hfun, sum_count_eq_length _ _ hndsel]
    · rw [← hall.length_eq]
      omega
    · intro k hk
      obtain ⟨p, hp⟩ := mem_schedule _ _ _ _ _ (List.mem_of_mem_take hk)
      exact (hrange p).subset hp

theorem near_even_distribution_witness :
    ∃ P, CreateRandomPassword (fun _ => 0) (fun i => 11 * i + 2)
        (fun _ => [latinUpperTitle, latinLowerTitle, digitsTitle, specialTitle]) 7
        true true true false 7 = Outcome.done P
      ∧ ((selectedKeys (mapEntries (usedMap true true true false))).map
          (fun t => classCount t (sliceElems P.PasswordItself))).sum = 7 :=
  (near_even_distribution (fun _ => 0) (fun i => 11 * i + 2)
    (fun _ => [latinUpperTitle, latinLowerTitle, digitsTitle, specialTitle]) 7
    true true true false 7 (by decide) (by decide) (fun _ => List.Perm.refl _)
    (by decide)).imp fun _ h => ⟨h.1, h.2.2.2⟩

end RandomPass
